import Mathlib

/-!
Verification of the concurrent processing engine of the video-scanner
repository: the retry/backoff layer (`src/utils/retry.js`), the bounded
concurrency task queue (`TaskQueue`), the two-tier result cache (`Cache`),
the identifier extraction (`Organizer.extractVideoCode`) and the per-item
pipeline with compensation (`Organizer.processVideo`, `FileUtils.moveFile`).
Each JavaScript function is shallowly embedded as an executable Lean
definition; asynchronous interleaving is modelled by explicit schedules and
fallible I/O by explicit outcome oracles.
-/

namespace VideoScanner

/-! ### Retry layer (src/utils/retry.js)

`retryOperation(operation, {maxRetries, baseDelay, maxDelay, ...})` validates
its configuration, then runs `operation` up to `maxRetries` times, sleeping
`min(baseDelay * 2^attempt, maxDelay)` between failed attempts.  The sleep is
implemented as a promise that rejects with an interruption error when the
module-level `isAborting` flag is already set when the sleep starts, and whose
timer is registered in the module-level `cleanupFunctions` list.

The only writer of `isAborting` is `globalAbortHandler`, installed on SIGINT
and SIGTERM; it sets the flag, pops and runs every registered cleanup function
(clearing any pending backoff timer) and then calls `process.exit(1)`.  The
model therefore represents an abort signal by the point of the run at which it
fires; once it fires, the process exits, which the outcome `exited` records.
-/

/-- Outcome of one `retryOperation` run.  `interrupted` is the
`操作被用户中断` error thrown by the in-loop abort checks and by the sleep
promise; `exhausted` is the enhanced error built after the loop, carrying the
attempt count and the last underlying error; `exited` means the process was
terminated by `globalAbortHandler`'s `process.exit(1)`. -/
inductive RetryOutcome (E V : Type) where
  | ok (v : V)
  | exhausted (attempts : Nat) (lastErr : E)
  | interrupted
  | invalidConfig
  | exited
deriving DecidableEq, Repr

/-- When, relative to the observable events of one `retryOperation` run, the
process-wide abort signal fires.  `duringAttempt k` means while attempt `k`'s
`operation()` is awaited; `duringSleep k` means while the backoff timer that
follows failed attempt `k` is pending. -/
inductive AbortSig where
  | never
  | duringAttempt (k : Nat)
  | duringSleep (k : Nat)
deriving DecidableEq, Repr

/-- Observable summary of a `retryOperation` run: how many times the wrapped
operation was invoked, whether a pending backoff timer was cleared by the
global abort handler, and the final outcome. -/
structure RetryRun (E V : Type) where
  invocations : Nat
  timerCleared : Bool
  outcome : RetryOutcome E V
deriving DecidableEq, Repr

/-- Backoff delay before retrying after attempt `attempt`:
`Math.min(baseDelay * Math.pow(2, attempt), maxDelay)`. -/
def computeDelay (baseDelay maxDelay : Int) (attempt : Nat) : Int :=
  min (baseDelay * 2 ^ attempt) maxDelay

/-- The retry loop of `retryOperation`, with `left` iterations remaining and
`k` the index of the current attempt.  `results k` is the outcome of the
`k`-th invocation of the wrapped operation.  The in-loop `isAborting` checks
never observe `true`: the only writer of the flag exits the process
synchronously, which is modelled by returning `exited` at the abort point. -/
def retryAux (results : Nat → Except E V) (abort : AbortSig) (k : Nat) :
    Nat → RetryRun E V
  | 0 => ⟨k, false, .invalidConfig⟩
  | left + 1 =>
    if abort = .duringAttempt k then
      ⟨k + 1, false, .exited⟩
    else
      match results k with
      | .ok v => ⟨k + 1, false, .ok v⟩
      | .error e =>
        if left = 0 then
          ⟨k + 1, false, .exhausted (k + 1) e⟩
        else if abort = .duringSleep k then
          ⟨k + 1, true, .exited⟩
        else
          retryAux results abort (k + 1) left

/-- Shallow embedding of `retryOperation` (src/utils/retry.js).  Validation
rejects `maxRetries < 1` and negative delays before any attempt is made. -/
def retryOperation (maxRetries baseDelay maxDelay : Int)
    (results : Nat → Except E V) (abort : AbortSig) : RetryRun E V :=
  if maxRetries < 1 then ⟨0, false, .invalidConfig⟩
  else if baseDelay < 0 ∨ maxDelay < 0 then ⟨0, false, .invalidConfig⟩
  else retryAux results abort 0 maxRetries.toNat

/-- One-step unfolding of the retry loop. -/
theorem retryAux_step (results : Nat → Except E V) (abort : AbortSig) (k left : Nat) :
    retryAux results abort k (left + 1) =
      if abort = .duringAttempt k then ⟨k + 1, false, .exited⟩
      else
        match results k with
        | .ok v => ⟨k + 1, false, .ok v⟩
        | .error e =>
          if left = 0 then ⟨k + 1, false, .exhausted (k + 1) e⟩
          else if abort = .duringSleep k then ⟨k + 1, true, .exited⟩
          else retryAux results abort (k + 1) left := rfl

/-- On an always-failing operation with no abort, the loop runs all `left`
remaining attempts and reports exhaustion with the last error. -/
theorem retryAux_allFail (errs : Nat → E) (k left : Nat) (hl : 1 ≤ left) :
    retryAux (V := V) (fun j => .error (errs j)) .never k left =
      ⟨k + left, false, .exhausted (k + left) (errs (k + left - 1))⟩ := by
  induction left generalizing k with
  | zero => omega
  | succ n ih =>
    cases n with
    | zero => simp [retryAux]
    | succ m =>
      have h := ih (k + 1) (by omega)
      have e1 : k + 1 + (m + 1) = k + (m + 1 + 1) := by omega
      rw [e1] at h
      rw [retryAux_step]
      simpa using h

/-- C4: for every operation that fails on every invocation and every valid
configuration (`maxRetries ≥ 1`, non-negative delays) with no abort signal,
`retryOperation` invokes the operation exactly `maxRetries` times and then
throws an exhaustion error carrying both the last underlying error and the
attempt count. -/
theorem C4_retry_exhaustion (maxRetries baseDelay maxDelay : Int) (errs : Nat → E)
    (h1 : 1 ≤ maxRetries) (h2 : 0 ≤ baseDelay) (h3 : 0 ≤ maxDelay) :
    retryOperation (V := V) maxRetries baseDelay maxDelay
        (fun j => .error (errs j)) .never =
      ⟨maxRetries.toNat, false,
        .exhausted maxRetries.toNat (errs (maxRetries.toNat - 1))⟩ := by
  have hm : ¬ maxRetries < 1 := by omega
  have hd : ¬ (baseDelay < 0 ∨ maxDelay < 0) := by omega
  rw [retryOperation, if_neg hm, if_neg hd,
    retryAux_allFail errs 0 maxRetries.toNat (by omega)]
  simp

/-- Witness for C4 at `maxRetries = 3`, `baseDelay = 1000`, `maxDelay = 5000`:
three invocations, exhaustion carrying attempt count 3 and the last error. -/
theorem C4_retry_exhaustion_witness :
    (1 : Int) ≤ 3 ∧ (0 : Int) ≤ 1000 ∧ (0 : Int) ≤ 5000 ∧
      retryOperation (V := Nat) 3 1000 5000 (fun j => .error j) .never =
        ⟨3, false, .exhausted 3 2⟩ :=
  ⟨by norm_num, by norm_num, by norm_num, by
    have h := C4_retry_exhaustion (V := Nat) 3 1000 5000 (fun j => j)
      (by norm_num) (by norm_num) (by norm_num)
    simpa using h⟩

/-- C5 counterexample: with `maxRetries = 3`, `baseDelay = 1000`,
`maxDelay = 10000`, an always-failing operation, and the abort flag becoming
set while the loop sleeps after attempt 0, the run ends with the process
exited by `globalAbortHandler` (which clears the pending timer and calls
`process.exit(1)`), not with the interruption error the claim requires: the
only writer of `isAborting` exits the process synchronously, so the
interruption-error paths never fire. -/
theorem C5_abort_counterexample :
    retryOperation (V := Nat) 3 1000 10000 (fun _ => .error 0) (.duringSleep 0) =
        ⟨1, true, .exited⟩ ∧
      (RetryOutcome.exited : RetryOutcome Nat Nat) ≠ .interrupted := by
  constructor
  · rfl
  · intro h
    exact RetryOutcome.noConfusion h

/-- C5 amended: if the process-wide abort flag becomes set while the retry
loop is sleeping after a failed attempt `k`, the backoff wait is cut short
(the global abort handler clears the pending timer) and the retry loop never
continues — no further attempt is made — but instead of failing with an
interruption error, the process is exited by `globalAbortHandler`'s
`process.exit(1)`. -/
theorem C5_abort_during_sleep (maxRetries baseDelay maxDelay : Int)
    (results : Nat → Except E V) (errs : Nat → E) (k : Nat)
    (hfail : ∀ j, j ≤ k → results j = .error (errs j))
    (hk : (k : Int) + 1 < maxRetries) (h2 : 0 ≤ baseDelay) (h3 : 0 ≤ maxDelay) :
    retryOperation maxRetries baseDelay maxDelay results (.duringSleep k) =
      ⟨k + 1, true, .exited⟩ := by
  have hm : ¬ maxRetries < 1 := by omega
  have hd : ¬ (baseDelay < 0 ∨ maxDelay < 0) := by omega
  rw [retryOperation, if_neg hm, if_neg hd]
  have hlt : k + 1 < maxRetries.toNat := by omega
  have main : ∀ left j, j ≤ k → k + 1 < j + left →
      retryAux results (.duringSleep k) j left = ⟨k + 1, true, .exited⟩ := by
    intro left
    induction left with
    | zero => intro j hj hlt2; omega
    | succ n ih =>
      intro j hj hlt2
      have hn0 : ¬ n = 0 := by omega
      rw [retryAux_step, if_neg (by simp)]
      simp only [hfail j hj, if_neg hn0]
      by_cases hjk : j = k
      · subst hjk
        rw [if_pos rfl]
      · rw [if_neg (by simp only [AbortSig.duringSleep.injEq]; omega)]
        exact ih (j + 1) (by omega) (by omega)
  exact main maxRetries.toNat 0 (Nat.zero_le k) (by omega)

/-- Witness for C5 amended at `k = 0`, `maxRetries = 3`: one invocation, the
timer is cleared, the process exits. -/
theorem C5_abort_during_sleep_witness :
    (∀ j, j ≤ 0 → (fun _ => (Except.error 7 : Except Nat Nat)) j = .error 7) ∧
      retryOperation (V := Nat) 3 1000 10000 (fun _ => .error 7) (.duringSleep 0) =
        ⟨1, true, .exited⟩ :=
  ⟨fun _ _ => rfl,
    C5_abort_during_sleep 3 1000 10000 (fun _ => .error 7) (fun _ => 7) 0
      (fun _ _ => rfl) (by norm_num) (by norm_num) (by norm_num)⟩

/-! ### Identifier extraction (Organizer.extractVideoCode, src/core/organizer.js)

`extractVideoCode(fileName)` first strips the final extension with
`fileName.replace(/\.[^/.]+$/, '')`, then tries three precompiled patterns in
order — `FC2: /FC2[^\d]*(\d+)/i`, `STANDARD: /([A-Z]{2,6})-(\d{2,5})(?:-[A-Z])?/i`
and `NO_HYPHEN: /([A-Z]{2,6})(\d{2,5})(?:-[A-Z])?/i` — formats the first
match and uppercases it; when none matches it returns the extension-stripped
name.  The matchers below reproduce the JavaScript leftmost-match semantics of
these particular patterns: the engine tries each start position from the left;
because a greedy bounded letter run can only be followed by the required
delimiter at its own end, no inner backtracking is observable for these
patterns. -/

def isDigitC (c : Char) : Bool := '0' ≤ c && c ≤ '9'

def isAlphaC (c : Char) : Bool := ('A' ≤ c && c ≤ 'Z') || ('a' ≤ c && c ≤ 'z')

/-- `fileName.replace(/\.[^/.]+$/, '')`: remove a final `.suffix` whose suffix
is non-empty and contains neither `/` nor `.`. -/
def stripExt (s : String) : String :=
  let rev := s.toList.reverse
  let run := rev.takeWhile (fun c => c ≠ '.' && c ≠ '/')
  match rev.drop run.length with
  | '.' :: rest => if run.isEmpty then s else String.mk rest.reverse
  | _ => s

/-- Case-insensitive literal `FC2` at the head of the list. -/
def fc2At : List Char → Bool
  | a :: b :: c :: _ => (a = 'F' || a = 'f') && (b = 'C' || b = 'c') && c = '2'
  | _ => false

/-- Leftmost match of `/FC2[^\d]*(\d+)/i`; returns the digit capture. -/
def fc2Find : List Char → Option (List Char)
  | [] => none
  | c :: rest =>
    if fc2At (c :: rest) then
      let after := (c :: rest).drop 3
      let digs := (after.dropWhile (fun d => !isDigitC d)).takeWhile isDigitC
      if digs.isEmpty then fc2Find rest else some digs
    else fc2Find rest

/-- Leftmost match of `/([A-Z]{2,6})-(\d{2,5})(?:-[A-Z])?/i`; returns the two
captures.  At a given start position the greedy letter run must end exactly at
the hyphen, so a match at position `i` requires the maximal letter run from
`i` to have length 2..6 and to be followed by `-` and at least two digits; the
digit capture greedily takes at most five digits. -/
def stdFind : List Char → Option (List Char × List Char)
  | [] => none
  | c :: rest =>
    let s := c :: rest
    let letters := s.takeWhile isAlphaC
    if 2 ≤ letters.length && letters.length ≤ 6 then
      match s.drop letters.length with
      | '-' :: tl =>
        let digs := tl.takeWhile isDigitC
        if 2 ≤ digs.length then some (letters, digs.take 5) else stdFind rest
      | _ => stdFind rest
    else stdFind rest

/-- Leftmost match of `/([A-Z]{2,6})(\d{2,5})(?:-[A-Z])?/i`; returns the two
captures. -/
def nhFind : List Char → Option (List Char × List Char)
  | [] => none
  | c :: rest =>
    let s := c :: rest
    let letters := s.takeWhile isAlphaC
    if 2 ≤ letters.length && letters.length ≤ 6 then
      let digs := (s.drop letters.length).takeWhile isDigitC
      if 2 ≤ digs.length then some (letters, digs.take 5) else nhFind rest
    else nhFind rest

/-- Shallow embedding of `Organizer.extractVideoCode`. -/
def extractVideoCode (fileName : String) : String :=
  let nameWithoutExt := stripExt fileName
  let cs := nameWithoutExt.toList
  match fc2Find cs with
  | some digs => String.toUpper ("FC2-PPV-" ++ String.mk digs)
  | none =>
    match stdFind cs with
    | some (l, d) => String.toUpper (String.mk l ++ "-" ++ String.mk d)
    | none =>
      match nhFind cs with
      | some (l, d) => String.toUpper (String.mk l ++ "-" ++ String.mk d)
      | none => nameWithoutExt

/-- C9 counterexample: `extractVideoCode` does not return the filename itself
on a pattern-less name — it returns the filename stripped of its final
extension: `"hello.mp4"` maps to `"hello"`, not `"hello.mp4"`. -/
theorem C9_extract_counterexample :
    extractVideoCode "hello.mp4" = "hello" ∧ ("hello" : String) ≠ "hello.mp4" :=
  ⟨by rfl, by decide⟩

/-- C9 amended: the identifier extraction is a pure, total function from
filenames to identifier strings (it is a Lean function), and for every
filename on which none of the three recognized patterns matches it returns
the filename stripped of its final extension. -/
theorem C9_extract_fallback (fileName : String)
    (h1 : fc2Find (stripExt fileName).toList = none)
    (h2 : stdFind (stripExt fileName).toList = none)
    (h3 : nhFind (stripExt fileName).toList = none) :
    extractVideoCode fileName = stripExt fileName := by
  simp only [extractVideoCode, h1, h2, h3]

/-- Witness for C9 amended at `"hello.mp4"`: no pattern matches `"hello"`, and
the result is the extension-stripped name. -/
theorem C9_extract_fallback_witness :
    fc2Find (stripExt "hello.mp4").toList = none ∧
      stdFind (stripExt "hello.mp4").toList = none ∧
      nhFind (stripExt "hello.mp4").toList = none ∧
      extractVideoCode "hello.mp4" = stripExt "hello.mp4" :=
  ⟨by decide, by decide, by decide,
    C9_extract_fallback "hello.mp4" (by decide) (by decide) (by decide)⟩

/-! ### TaskQueue (class TaskQueue, src/core/queue.js)

The queue keeps a pending list sorted by descending priority and ascending
enqueue timestamp, a `running` counter bounded by `concurrency`
(constructor default 32), and a stopped flag.  `add` rejects immediately when
stopped, otherwise pushes an entry, re-sorts, and triggers `process()`;
`process()` admits the head of the pending list when a slot is free, skipping
(and discarding) entries whose enqueue timeout already cancelled them; task
completion decrements `running` and schedules another `process()` via
`setImmediate`.  The model represents the event loop by an explicit list of
actions: each `setImmediate(() => this.process())` becomes a `dispatch`
action, and the settlement of a running task's promise becomes a `complete`
action.  Task identities are `tid`s; enqueue timestamps are modelled by the
strictly increasing `tid` counter, so the sort comparator is total. -/

namespace TaskQueue

/-- A pending queue entry (`queueItem` in `add`). -/
structure QItem where
  tid : Nat
  priority : Int
  timestamp : Nat
  cancelled : Bool
deriving DecidableEq, Repr

/-- The sort comparator `(a, b) => b.priority - a.priority || a.timestamp -
b.timestamp`: higher priority first, earlier enqueue first among equal
priorities. -/
def qBefore (a b : QItem) : Prop :=
  b.priority < a.priority ∨ (a.priority = b.priority ∧ a.timestamp ≤ b.timestamp)

instance : DecidableRel qBefore := fun a b => by
  unfold qBefore; infer_instance

/-- TaskQueue state: pending entries, tids of running tasks, tids of settled
tasks in settlement order, tids whose futures were rejected without running
(stopped queue, cancellation, enqueue timeout), the stopped flag, the
concurrency limit, and the tid/timestamp counter. -/
structure QState where
  queue : List QItem
  runningTids : List Nat
  settled : List Nat
  rejected : List Nat
  isStopped : Bool
  concurrency : Nat
  nextTid : Nat
deriving DecidableEq, Repr

/-- A fresh queue with the given concurrency limit (constructor default 32). -/
def initQ (c : Nat) : QState := ⟨[], [], [], [], false, c, 0⟩

/-- One `process()` call: return unless a slot is free, the pending list is
non-empty and the queue is not stopped; shift the head; discard it if
cancelled (the code then schedules another `process()`, a further `dispatch`
action), else mark it started and run it. -/
def dispatch (st : QState) : QState :=
  if st.concurrency ≤ st.runningTids.length ∨ st.queue.isEmpty ∨ st.isStopped then st
  else
    match st.queue with
    | [] => st
    | item :: rest =>
      if item.cancelled then { st with queue := rest }
      else { st with queue := rest, runningTids := st.runningTids ++ [item.tid] }

/-- One `add(task, priority)` call (timeout 0): reject when stopped, else
push the entry, re-sort by `qBefore`, and run `process()` once. -/
def add (st : QState) (priority : Int) : QState :=
  if st.isStopped then
    { st with rejected := st.rejected ++ [st.nextTid], nextTid := st.nextTid + 1 }
  else
    dispatch
      { st with
        queue := List.insertionSort qBefore
          (st.queue ++ [⟨st.nextTid, priority, st.nextTid, false⟩]),
        nextTid := st.nextTid + 1 }

/-- Settlement of a running task: `running--`, the result or error is
recorded and the task's own promise settles.  The trailing
`setImmediate(() => this.process())` is a separate `dispatch` action. -/
def complete (st : QState) (tid : Nat) : QState :=
  if tid ∈ st.runningTids then
    { st with
      runningTids := st.runningTids.erase tid,
      settled := st.settled ++ [tid] }
  else st

/-- One `cancel(predicate)` call, the predicate given by a tid list: matching
pending entries are marked cancelled and rejected, then every cancelled entry
is filtered out of the pending list. -/
def cancelQ (st : QState) (tids : List Nat) : QState :=
  let marked := st.queue.map
    (fun i => if i.tid ∈ tids then { i with cancelled := true } else i)
  { st with
    queue := marked.filter (fun i => !i.cancelled),
    rejected := st.rejected ++
      (st.queue.filter (fun i => i.tid ∈ tids)).map QItem.tid }

/-- The enqueue-timeout callback of entry `tid`: if the entry has not been
started (it is still pending), mark it cancelled and reject its future. -/
def timeoutFire (st : QState) (tid : Nat) : QState :=
  if st.queue.any (fun i => i.tid = tid && !i.cancelled) then
    { st with
      queue := st.queue.map
        (fun i => if i.tid = tid then { i with cancelled := true } else i),
      rejected := st.rejected ++ [tid] }
  else st

/-- One `stop()` call: reject every pending entry, clear the pending list,
refuse new submissions. -/
def stopQ (st : QState) : QState :=
  { st with
    rejected := st.rejected ++ st.queue.map QItem.tid,
    queue := [],
    isStopped := true }

/-- One `resume()` call. -/
def resumeQ (st : QState) : QState := { st with isStopped := false }

/-- The observable events of a queue's life: submissions, `process()` runs
scheduled by the event loop, task settlements, cancellations, enqueue
timeouts, stop and resume. -/
inductive QAction where
  | add (priority : Int)
  | dispatch
  | complete (tid : Nat)
  | cancel (tids : List Nat)
  | timeoutFire (tid : Nat)
  | stop
  | resume
deriving DecidableEq, Repr

def qstep (st : QState) : QAction → QState
  | .add p => add st p
  | .dispatch => dispatch st
  | .complete t => complete st t
  | .cancel ts => cancelQ st ts
  | .timeoutFire t => timeoutFire st t
  | .stop => stopQ st
  | .resume => resumeQ st

def runQ (st : QState) : List QAction → QState
  | [] => st
  | a :: acts => runQ (qstep st a) acts

theorem runQ_append (st : QState) (xs ys : List QAction) :
    runQ st (xs ++ ys) = runQ (runQ st xs) ys := by
  induction xs generalizing st with
  | nil => rfl
  | cons a xs ih => simp [runQ, ih]

/-- No action changes the concurrency limit. -/
theorem qstep_concurrency (st : QState) (a : QAction) :
    (qstep st a).concurrency = st.concurrency := by
  cases a <;>
    simp only [qstep, add, dispatch, complete, cancelQ, timeoutFire, stopQ, resumeQ] <;>
    (repeat' split) <;> rfl

/-- `process()` only admits a task when a slot is free, so it preserves the
concurrency bound. -/
theorem dispatch_bound (st : QState) (h : st.runningTids.length ≤ st.concurrency) :
    (dispatch st).runningTids.length ≤ st.concurrency := by
  rw [dispatch]
  split
  · exact h
  · rename_i hg
    push_neg at hg
    split
    · exact h
    · split
      · exact h
      · simp only [List.length_append, List.length_singleton]
        have := hg.1
        omega

/-- Every action preserves the concurrency bound on the running set. -/
theorem qstep_bound (st : QState) (a : QAction)
    (h : st.runningTids.length ≤ st.concurrency) :
    (qstep st a).runningTids.length ≤ (qstep st a).concurrency := by
  rw [qstep_concurrency]
  cases a with
  | add p =>
    simp only [qstep, add]
    split
    · exact h
    · exact dispatch_bound _ h
  | dispatch => exact dispatch_bound st h
  | complete t =>
    simp only [qstep, complete]
    split
    · exact le_trans (List.Sublist.length_le (List.erase_sublist _ _)) h
    · exact h
  | cancel ts => exact h
  | timeoutFire t =>
    simp only [qstep, timeoutFire]
    split <;> exact h
  | stop => exact h
  | resume => exact h

/-- The concurrency limit is invariant along any run. -/
theorem runQ_concurrency (st : QState) (acts : List QAction) :
    (runQ st acts).concurrency = st.concurrency := by
  induction acts generalizing st with
  | nil => rfl
  | cons a acts ih =>
    show (runQ (qstep st a) acts).concurrency = st.concurrency
    rw [ih, qstep_concurrency]

/-- C3: along every sequence of submissions, admissions, settlements,
cancellations, timeouts, stops and resumes, the number of concurrently
running tasks never exceeds the configured concurrency limit. -/
theorem C3_bounded_concurrency (c : Nat) (acts : List QAction) :
    (runQ (initQ c) acts).runningTids.length ≤ c := by
  suffices h : ∀ st : QState, st.runningTids.length ≤ st.concurrency →
      (runQ st acts).runningTids.length ≤ (runQ st acts).concurrency by
    have h2 := h (initQ c) (by simp [initQ])
    rwa [runQ_concurrency] at h2
  intro st h
  induction acts generalizing st with
  | nil => exact h
  | cons a acts ih => exact ih _ (qstep_bound st a h)

/-! #### processAll (`processAll(tasks)` = `tasks.map(add)` + `Promise.all`)

`processAll` submits every task (default priority 0) and returns
`Promise.all(promises)`.  The tasks are identified with tids `0..n-1`; their
individual outcomes are a function `outcomes : Nat → Except E V`.  The queue
transition relation never consults `outcomes`: the settlement of a failing
task has exactly the same scheduling effect as that of a succeeding one, so a
rejection cannot cancel or stall sibling tasks. -/

/-- The state of the aggregate promise produced by `Promise.all`. -/
inductive PState (E V : Type) where
  | pending
  | fulfilled (vs : List V)
  | rejected (e : E)
deriving DecidableEq, Repr

def isErr : Except E V → Bool
  | .error _ => true
  | .ok _ => false

/-- `Promise.all` over the `n` task promises, given the settlement order so
far: it is rejected with the error of the first task (in settlement order)
that rejected; fulfilled with the values in task order once all `n` tasks
have settled without a rejection; pending otherwise. -/
def promiseAll (n : Nat) (outcomes : Nat → Except E V) (settled : List Nat) :
    PState E V :=
  match settled.find? (fun t => isErr (outcomes t)) with
  | some t =>
    match outcomes t with
    | .error e => .rejected e
    | .ok _ => .pending
  | none =>
    if (List.range n).all (fun t => decide (t ∈ settled)) then
      .fulfilled ((List.range n).filterMap (fun t => (outcomes t).toOption))
    else .pending

/-- Actions available once the batch of submissions is in: event-loop
`process()` runs and task settlements. -/
def runPhase : QAction → Bool
  | .dispatch => true
  | .complete _ => true
  | _ => false

/-- The queue state right after `processAll` has submitted `n` tasks to a
fresh queue with concurrency `c` (each `add` runs `process()` once). -/
def addAll (c n : Nat) : QState :=
  runQ (initQ c) (List.replicate n (QAction.add 0))

/-- Nothing queued and nothing running. -/
def quiescent (st : QState) : Prop := st.queue = [] ∧ st.runningTids = []

instance : DecidablePred quiescent := fun st => by
  unfold quiescent; infer_instance

/-- Multiset of task identities currently tracked by the queue: pending,
running or settled. -/
def tidsOf (st : QState) : Multiset Nat :=
  ((st.queue.map QItem.tid ++ st.runningTids ++ st.settled : List Nat) : Multiset Nat)

/-- Invariant of a `processAll` run over tasks `0..n-1`: the queue was never
stopped, no entry was cancelled, and the pending/running/settled tids are
exactly `0..n-1`. -/
def cleanRun (n : Nat) (st : QState) : Prop :=
  st.isStopped = false ∧ (∀ i ∈ st.queue, i.cancelled = false) ∧
    tidsOf st = ((List.range n : List Nat) : Multiset Nat)

theorem dispatch_fields (st : QState) :
    (dispatch st).isStopped = st.isStopped ∧ (dispatch st).settled = st.settled ∧
      (dispatch st).nextTid = st.nextTid := by
  rw [dispatch]
  (repeat' split) <;> exact ⟨rfl, rfl, rfl⟩

theorem dispatch_queue_sub (st : QState) :
    ∀ i ∈ (dispatch st).queue, i ∈ st.queue := by
  rw [dispatch]
  split
  · exact fun i hi => hi
  · split
    · exact fun i hi => hi
    · rename_i heq
      split <;>
        exact fun i hi => by rw [heq]; exact List.mem_cons_of_mem _ hi

theorem dispatch_tids (st : QState)
    (hnc : ∀ i ∈ st.queue, i.cancelled = false) :
    tidsOf (dispatch st) = tidsOf st := by
  rw [dispatch]
  split
  · rfl
  · split
    · rfl
    · rename_i item rest heq
      split
      · rename_i hcan
        have hfalse := hnc _ (by rw [heq]; exact List.mem_cons_self _ _)
        rw [hfalse] at hcan
        exact Bool.noConfusion hcan
      · simp only [tidsOf, heq, List.map_cons]
        apply Multiset.coe_eq_coe.mpr
        have h1 : List.map QItem.tid rest ++ (st.runningTids ++ [item.tid]) ++ st.settled
            = (List.map QItem.tid rest ++ st.runningTids) ++ item.tid :: st.settled := by
          simp
        have h2 : (item.tid :: List.map QItem.tid rest) ++ st.runningTids ++ st.settled
            = item.tid :: ((List.map QItem.tid rest ++ st.runningTids) ++ st.settled) := by
          simp
        rw [h1, h2]
        exact List.perm_middle

theorem complete_tids (st : QState) (t : Nat) :
    tidsOf (complete st t) = tidsOf st := by
  rw [complete]
  split
  · rename_i ht
    simp only [tidsOf, ← Multiset.coe_add]
    rw [← Multiset.coe_erase, Multiset.coe_singleton]
    have hc : t ::ₘ ((st.runningTids : Multiset Nat).erase t) =
        (st.runningTids : Multiset Nat) :=
      Multiset.cons_erase (Multiset.mem_coe.mpr ht)
    nth_rewrite 2 [← hc]
    rw [← Multiset.singleton_add]
    abel
  · rfl

theorem complete_fields (st : QState) (t : Nat) :
    (complete st t).queue = st.queue ∧ (complete st t).isStopped = st.isStopped := by
  rw [complete]
  split <;> exact ⟨rfl, rfl⟩

/-- `add` on a clean queue of tasks `0..n-1` yields a clean queue of tasks
`0..n`. -/
theorem add_clean (n : Nat) (st : QState) (h : cleanRun n st)
    (hn : st.nextTid = n) (p : Int) :
    cleanRun (n + 1) (add st p) ∧ (add st p).nextTid = n + 1 := by
  obtain ⟨hstop, hnc, htids⟩ := h
  rw [add, if_neg (by rw [hstop]; exact Bool.false_ne_true)]
  set item : QItem := ⟨st.nextTid, p, st.nextTid, false⟩ with hitem
  set st' : QState :=
    { st with
      queue := List.insertionSort qBefore (st.queue ++ [item]),
      nextTid := st.nextTid + 1 } with hst'
  have hnc' : ∀ i ∈ st'.queue, i.cancelled = false := by
    intro i hi
    have hmem : i ∈ st.queue ++ [item] :=
      ((List.perm_insertionSort qBefore _).mem_iff).mp hi
    rcases List.mem_append.mp hmem with hold | hnew
    · exact hnc i hold
    · rw [List.mem_singleton.mp hnew]
  have htids' : tidsOf st' = ((List.range (n + 1) : List Nat) : Multiset Nat) := by
    have hperm : List.Perm (st'.queue.map QItem.tid ++ st'.runningTids ++ st'.settled)
        ((st.queue.map QItem.tid ++ [st.nextTid]) ++ st.runningTids ++ st.settled) := by
      have hp := (List.perm_insertionSort qBefore (st.queue ++ [item])).map QItem.tid
      rw [List.map_append] at hp
      exact (hp.append_right st.runningTids).append_right st.settled
    have hsplit : tidsOf st' =
        (((st.queue.map QItem.tid ++ [st.nextTid]) ++ st.runningTids ++ st.settled :
          List Nat) : Multiset Nat) := by
      rw [tidsOf]
      exact Multiset.coe_eq_coe.mpr hperm
    rw [hsplit, List.range_succ, hn]
    rw [tidsOf] at htids
    simp only [← Multiset.coe_add, Multiset.coe_singleton] at htids ⊢
    rw [← htids]
    abel
  refine ⟨⟨?_, ?_, ?_⟩, ?_⟩
  · rw [(dispatch_fields st').1]
    exact hstop
  · intro i hi
    exact hnc' i (dispatch_queue_sub st' i hi)
  · rw [dispatch_tids st' hnc']
    exact htids'
  · rw [(dispatch_fields st').2.2]
    show st.nextTid + 1 = n + 1
    omega

/-- After `processAll` has submitted its `n` tasks, the queue is clean and
tracks exactly the tids `0..n-1`. -/
theorem addAll_spec (c n : Nat) :
    cleanRun n (addAll c n) ∧ (addAll c n).nextTid = n := by
  induction n with
  | zero =>
    refine ⟨⟨rfl, ?_, rfl⟩, rfl⟩
    intro i hi
    cases hi
  | succ n ih =>
    have hstep : addAll c (n + 1) = add (addAll c n) 0 := by
      rw [addAll, List.replicate_succ', runQ_append]
      rfl
    rw [hstep]
    exact add_clean n _ ih.1 ih.2 0

/-- Event-loop dispatches and task settlements keep a clean run clean: in
particular, a task settling with an error has exactly the same effect on the
pending list and running set as a successful settlement (no sibling is
cancelled). -/
theorem runPhase_clean (n : Nat) (st : QState) (h : cleanRun n st)
    (acts : List QAction) (ha : ∀ a ∈ acts, runPhase a = true) :
    cleanRun n (runQ st acts) := by
  induction acts generalizing st with
  | nil => exact h
  | cons a acts ih =>
    have ha' : ∀ b ∈ acts, runPhase b = true := fun b hb =>
      ha b (List.mem_cons_of_mem a hb)
    have hstep : cleanRun n (qstep st a) := by
      have haa := ha a (List.mem_cons_self a acts)
      obtain ⟨hstop, hnc, htids⟩ := h
      cases a with
      | dispatch =>
        refine ⟨?_, ?_, ?_⟩
        · rw [show qstep st .dispatch = dispatch st from rfl, (dispatch_fields st).1]
          exact hstop
        · intro i hi
          exact hnc i (dispatch_queue_sub st i hi)
        · rw [show qstep st .dispatch = dispatch st from rfl, dispatch_tids st hnc]
          exact htids
      | complete t =>
        refine ⟨?_, ?_, ?_⟩
        · rw [show qstep st (.complete t) = complete st t from rfl,
            (complete_fields st t).2]
          exact hstop
        · intro i hi
          rw [show qstep st (.complete t) = complete st t from rfl,
            (complete_fields st t).1] at hi
          exact hnc i hi
        · rw [show qstep st (.complete t) = complete st t from rfl, complete_tids st t]
          exact htids
      | add p => exact Bool.noConfusion haa
      | cancel ts => exact Bool.noConfusion haa
      | timeoutFire t => exact Bool.noConfusion haa
      | stop => exact Bool.noConfusion haa
      | resume => exact Bool.noConfusion haa
    exact ih _ hstep ha'

/-- `Promise.all` is fulfilled only when every one of the `n` tasks has
settled. -/
theorem promiseAll_fulfilled_mem (n : Nat) (outcomes : Nat → Except E V)
    (s : List Nat) (vs : List V) (h : promiseAll n outcomes s = .fulfilled vs) :
    ∀ t, t < n → t ∈ s := by
  intro t ht
  rw [promiseAll] at h
  split at h
  · split at h <;> cases h
  · split at h
    · rename_i hall
      exact of_decide_eq_true (List.all_eq_true.mp hall t (List.mem_range.mpr ht))
    · cases h

/-- When `Promise.all` is rejected, its error is the error of the first task
in settlement order whose outcome was a rejection. -/
theorem promiseAll_rejected (n : Nat) (outcomes : Nat → Except E V)
    (s : List Nat) (e : E) (h : promiseAll n outcomes s = .rejected e) :
    ∃ t, s.find? (fun u => isErr (outcomes u)) = some t ∧
      outcomes t = .error e := by
  rw [promiseAll] at h
  split at h
  · rename_i u hfind
    split at h
    · rename_i e' hout
      cases h
      exact ⟨u, hfind, hout⟩
    · cases h
  · split at h <;> cases h

/-- C2: for every list of `n` submitted tasks with arbitrary outcomes, and
every event-loop schedule of dispatches and settlements: (1) the aggregate
promise returned by `processAll` (`Promise.all` over the per-task promises)
is fulfilled only at a point where every task has settled; (2) if the
schedule drains the queue, every task has settled exactly once — regardless
of which tasks rejected, i.e. no sibling task is ever cancelled by a
rejection; and (3) whenever the aggregate is rejected, it propagates the
error of the first task (in settlement order) that rejected. -/
theorem C2_processAll_settlement {E V : Type} (c n : Nat)
    (outcomes : Nat → Except E V) (sched : List QAction)
    (hsched : ∀ a ∈ sched, runPhase a = true) :
    (∀ pre, pre <+: sched →
      ∀ vs, promiseAll n outcomes (runQ (addAll c n) pre).settled = .fulfilled vs →
        ∀ t, t < n → t ∈ (runQ (addAll c n) pre).settled) ∧
    (quiescent (runQ (addAll c n) sched) →
      (∀ t, t < n → (runQ (addAll c n) sched).settled.count t = 1) ∧
      (∀ e, promiseAll n outcomes (runQ (addAll c n) sched).settled = .rejected e →
        ∃ t, (runQ (addAll c n) sched).settled.find? (fun u => isErr (outcomes u)) =
              some t ∧ outcomes t = .error e)) := by
  constructor
  · intro pre _ vs hful t ht
    exact promiseAll_fulfilled_mem n outcomes _ vs hful t ht
  · intro hq
    have hclean : cleanRun n (runQ (addAll c n) sched) :=
      runPhase_clean n _ (addAll_spec c n).1 sched hsched
    have hperm : List.Perm (runQ (addAll c n) sched).settled (List.range n) := by
      have htids := hclean.2.2
      rw [tidsOf, hq.1, hq.2] at htids
      simpa using Multiset.coe_eq_coe.mp htids
    constructor
    · intro t ht
      rw [hperm.count_eq]
      exact List.count_eq_one_of_mem (List.nodup_range n) (List.mem_range.mpr ht)
    · intro e he
      exact promiseAll_rejected n outcomes _ e he

/-- Witness for C2 with two tasks on a concurrency-1 queue, task 0 rejecting:
the schedule settles task 0, dispatches, settles task 1; the queue drains and
both tasks settle exactly once. -/
theorem C2_processAll_settlement_witness :
    (∀ a ∈ ([QAction.complete 0, QAction.dispatch, QAction.complete 1] :
        List QAction), runPhase a = true) ∧
      quiescent (runQ (addAll 1 2)
        [QAction.complete 0, QAction.dispatch, QAction.complete 1]) ∧
      (∀ t, t < 2 →
        (runQ (addAll 1 2)
          [QAction.complete 0, QAction.dispatch, QAction.complete 1]).settled.count t
            = 1) := by
  refine ⟨by decide, by decide, ?_⟩
  exact ((C2_processAll_settlement (E := Nat) (V := Nat) 1 2
    (fun t => if t = 0 then .error 5 else .ok 9) _ (by decide)).2 (by decide)).1

end TaskQueue

/-! ### Two-tier cache (class Cache, src/services/cache.js)

`Cache` keeps an in-process `Map` (`memoryCache`) with an `accessOrder` list
for LRU bookkeeping, and a durable tier of `<hash>.json` files under
`cacheDir`.  `generateKey` hashes the caller key with md5; the spec treats
collisions as out of scope, so the model identifies a key with its digest.
The durable tier is modelled as an association of file stems to entries; a
file entry records the JSON body (`data`, `maxAge`, `timestamp`) plus the
file's `mtimeMs`, which `set` makes equal to the write time.  Wall-clock time
is an explicit `now` argument per operation.  The ghost fields `clock` and
`touchT` instrument the model only: `touchT` records, per key, the logical
time of the last `updateAccessOrder` call (which the code performs exactly on
every `set` and on every `get` hit), so that "least-recently-touched" can be
stated independently of `accessOrder` itself. -/

namespace Cache

/-- Configuration read in `_doInit`: `cache.maxMemoryItems` (default 1000) and
`cache.maxAge` (default 24h in ms). -/
structure CacheCfg where
  maxMemoryItems : Nat
  maxFileAge : Nat
deriving DecidableEq, Repr

/-- A `memoryCache` entry: `{ data, timestamp: Date.now(), maxAge }`. -/
structure MemEntry (V : Type) where
  data : V
  timestamp : Nat
  maxAge : Option Nat
deriving DecidableEq, Repr

/-- A durable entry: the JSON body `{ data, maxAge, timestamp }` plus the
file's `mtimeMs` (`set` writes temp-then-rename, so `mtime` equals the body's
`timestamp`). -/
structure FileEntry (V : Type) where
  data : V
  maxAge : Option Nat
  timestamp : Nat
  mtime : Nat
deriving DecidableEq, Repr

structure CacheState (V : Type) where
  memoryCache : List (String × MemEntry V)
  accessOrder : List String
  fileCache : List (String × FileEntry V)
  clock : Nat
  touchT : List (String × Nat)
deriving DecidableEq, Repr

def initCache {V : Type} : CacheState V := ⟨[], [], [], 0, []⟩

/-- Association lookup (JS `Map.get` / file lookup by stem). -/
def alookup : List (String × β) → String → Option β
  | [], _ => none
  | p :: rest, k => if p.1 = k then some p.2 else alookup rest k

/-- JS `Map.set`: update in place when the key exists (keeping insertion
order), else append. -/
def aset : List (String × β) → String → β → List (String × β)
  | [], k, v => [(k, v)]
  | p :: rest, k, v => if p.1 = k then (k, v) :: rest else p :: aset rest k v

/-- JS `Map.delete` / `fs.unlink`. -/
def adel (l : List (String × β)) (k : String) : List (String × β) :=
  l.filter (fun p => ¬ p.1 = k)

def memHas (st : CacheState V) (k : String) : Bool :=
  (alookup st.memoryCache k).isSome

def fileHas (st : CacheState V) (k : String) : Bool :=
  (alookup st.fileCache k).isSome

/-- JS `a || b` on an optional number, where both `undefined` and `0` are
falsy. -/
def jsOr (a b : Option Nat) : Option Nat :=
  match a with
  | some x => if x ≠ 0 then some x else b
  | none => b

/-- The max-age actually compared against, after `isExpired`'s
`if (!maxAge) maxAge = this.maxFileAge`. -/
def effAge (maxAge : Option Nat) (dflt : Nat) : Nat :=
  match maxAge with
  | some a => if a = 0 then dflt else a
  | none => dflt

/-- `isExpired(item, maxAge)`: `Date.now() - item.timestamp > maxAge`, with
the falsy-max-age fallback to `this.maxFileAge`. -/
def isExpired (ts : Nat) (maxAge : Option Nat) (dflt now : Nat) : Bool :=
  decide (effAge maxAge dflt < now - ts)

def touchOf (st : CacheState V) (k : String) : Nat :=
  (alookup st.touchT k).getD 0

/-- `updateAccessOrder(key)`: remove the key from its current position and
push it to the most-recent end.  The ghost `touchT`/`clock` update records
that this key was touched now. -/
def updateAccessOrder (st : CacheState V) (k : String) : CacheState V :=
  { st with
    accessOrder := st.accessOrder.erase k ++ [k],
    touchT := aset st.touchT k st.clock,
    clock := st.clock + 1 }

/-- `setMemoryCache(key, data, maxAge)`: evict the head of `accessOrder`
when inserting a new key at capacity, store the entry, refresh recency. -/
def setMemoryCache (cfg : CacheCfg) (st : CacheState V) (k : String) (data : V)
    (maxAge : Option Nat) (now : Nat) : CacheState V :=
  let st1 :=
    if cfg.maxMemoryItems ≤ st.memoryCache.length ∧ ¬ memHas st k then
      match st.accessOrder with
      | [] => st
      | oldest :: restOrder =>
        { st with
          memoryCache := adel st.memoryCache oldest,
          accessOrder := restOrder }
    else st
  let st2 := { st1 with memoryCache := aset st1.memoryCache k ⟨data, now, maxAge⟩ }
  updateAccessOrder st2 k

/-- The durable-tier half of `get`: stat/read the file, check expiry against
the file's mtime with `fileData.maxAge || options.maxAge`, promote fresh hits
into the memory tier, delete expired files. -/
def fileGet (cfg : CacheCfg) (st : CacheState V) (k : String)
    (optMaxAge : Option Nat) (now : Nat) : Option V × CacheState V :=
  match alookup st.fileCache k with
  | some fe =>
    let maxAge := jsOr fe.maxAge optMaxAge
    if isExpired fe.mtime maxAge cfg.maxFileAge now then
      (none, { st with fileCache := adel st.fileCache k })
    else
      (some fe.data, setMemoryCache cfg st k fe.data maxAge now)
  | none => (none, st)

/-- `Cache.get(key, options)`: memory tier first (expiry check with
`item.maxAge || options.maxAge`, recency refresh on hit, lazy deletion on
expiry), then the durable tier. -/
def get (cfg : CacheCfg) (st : CacheState V) (k : String)
    (optMaxAge : Option Nat) (now : Nat) : Option V × CacheState V :=
  match alookup st.memoryCache k with
  | some item =>
    if isExpired item.timestamp (jsOr item.maxAge optMaxAge) cfg.maxFileAge now then
      fileGet cfg
        { st with
          memoryCache := adel st.memoryCache k,
          accessOrder := st.accessOrder.erase k }
        k optMaxAge now
    else
      (some item.data, updateAccessOrder st k)
  | none => fileGet cfg st k optMaxAge now

/-- `Cache.set(key, data, options)`: store in the memory tier, then write the
durable file (temp-then-rename, modelled atomically) with body
`{data, maxAge: options.maxAge, timestamp: Date.now()}`. -/
def set (cfg : CacheCfg) (st : CacheState V) (k : String) (data : V)
    (optMaxAge : Option Nat) (now : Nat) : CacheState V :=
  let st1 := setMemoryCache cfg st k data optMaxAge now
  { st1 with fileCache := aset st1.fileCache k ⟨data, optMaxAge, now, now⟩ }

/-- Should `cleanup` delete this durable entry at time `now`?  The sweep
unlinks when the file's mtime-age exceeds the cache-wide `maxFileAge`, and
otherwise when the body records a truthy `maxAge` that its body-timestamp age
exceeds.  (Non-`.json` files and unparsable files are outside the model.) -/
def cleanupDeletes (cfg : CacheCfg) (fe : FileEntry V) (now : Nat) : Bool :=
  decide (cfg.maxFileAge < now - fe.mtime) ||
    (match fe.maxAge with
     | some a => decide (a ≠ 0) && decide (a < now - fe.timestamp)
     | none => false)

/-- `Cache.cleanup()`: sweep the durable tier. -/
def cleanup (cfg : CacheCfg) (st : CacheState V) (now : Nat) : CacheState V :=
  { st with fileCache := st.fileCache.filter (fun p => ¬ cleanupDeletes cfg p.2 now) }

/-- An operation of the cache's public interface, with its wall-clock time. -/
inductive CacheOp (V : Type) where
  | get (k : String) (optMaxAge : Option Nat) (now : Nat)
  | set (k : String) (data : V) (optMaxAge : Option Nat) (now : Nat)
  | cleanup (now : Nat)
deriving DecidableEq, Repr

def stepCache (cfg : CacheCfg) (st : CacheState V) : CacheOp V → CacheState V
  | .get k o now => (get cfg st k o now).2
  | .set k d o now => set cfg st k d o now
  | .cleanup now => cleanup cfg st now

def runCache (cfg : CacheCfg) (st : CacheState V) : List (CacheOp V) → CacheState V
  | [] => st
  | op :: ops => runCache cfg (stepCache cfg st op) ops

/-! #### Association-list facts used by the LRU invariant -/

theorem alookup_aset_self (l : List (String × β)) (k : String) (v : β) :
    alookup (aset l k v) k = some v := by
  induction l with
  | nil => simp [aset, alookup]
  | cons p rest ih =>
    by_cases h : p.1 = k
    · simp [aset, h, alookup]
    · simp [aset, h, alookup, ih]

theorem alookup_aset_ne (l : List (String × β)) (k k' : String) (v : β)
    (h : k' ≠ k) : alookup (aset l k v) k' = alookup l k' := by
  induction l with
  | nil => simp [aset, alookup, Ne.symm h]
  | cons p rest ih =>
    by_cases hp : p.1 = k
    · have hp' : ¬ p.1 = k' := by rw [hp]; exact Ne.symm h
      simp [aset, hp, alookup, hp', Ne.symm h, h]
    · by_cases hp' : p.1 = k'
      · simp [aset, hp, alookup, hp', Ne.symm h, h]
      · simp [aset, hp, alookup, hp', Ne.symm h, h, ih]

theorem alookup_eq_none_iff (l : List (String × β)) (k : String) :
    alookup l k = none ↔ k ∉ l.map Prod.fst := by
  induction l with
  | nil => simp [alookup]
  | cons p rest ih =>
    by_cases hp : p.1 = k
    · simp [alookup, hp]
    · simp [alookup, hp, ih, Ne.symm hp]

theorem isSome_iff_mem_keys (l : List (String × β)) (k : String) :
    (alookup l k).isSome = true ↔ k ∈ l.map Prod.fst := by
  constructor
  · intro hs
    by_contra hmem
    rw [← alookup_eq_none_iff] at hmem
    rw [hmem] at hs
    cases hs
  · intro hmem
    cases halt : alookup l k with
    | none => exact absurd hmem ((alookup_eq_none_iff l k).mp halt)
    | some v => rfl

theorem keys_aset_mem (l : List (String × β)) (k : String) (v : β)
    (h : (alookup l k).isSome) :
    (aset l k v).map Prod.fst = l.map Prod.fst := by
  induction l with
  | nil => simp [alookup] at h
  | cons p rest ih =>
    by_cases hp : p.1 = k
    · simp [aset, hp]
    · rw [alookup, if_neg hp] at h
      simp [aset, hp, ih h]

theorem keys_aset_none (l : List (String × β)) (k : String) (v : β)
    (h : alookup l k = none) :
    (aset l k v).map Prod.fst = l.map Prod.fst ++ [k] := by
  induction l with
  | nil => simp [aset]
  | cons p rest ih =>
    by_cases hp : p.1 = k
    · rw [alookup, if_pos hp] at h
      cases h
    · rw [alookup, if_neg hp] at h
      simp [aset, hp, ih h]

theorem alookup_adel_self (l : List (String × β)) (k : String) :
    alookup (adel l k) k = none := by
  induction l with
  | nil => rfl
  | cons p rest ih =>
    by_cases hp : p.1 = k
    · simpa [adel, List.filter_cons, hp] using ih
    · simpa [adel, List.filter_cons, hp, alookup] using ih

theorem alookup_adel_ne (l : List (String × β)) (k k' : String) (h : k' ≠ k) :
    alookup (adel l k) k' = alookup l k' := by
  induction l with
  | nil => rfl
  | cons p rest ih =>
    by_cases hp : p.1 = k
    · have hp' : ¬ p.1 = k' := by rw [hp]; exact Ne.symm h
      simpa [adel, List.filter_cons, hp, alookup, hp', Ne.symm h, h] using ih
    · by_cases hp' : p.1 = k'
      · simp [adel, List.filter_cons, hp, alookup, hp', Ne.symm h, h]
      · simpa [adel, List.filter_cons, hp, alookup, hp', Ne.symm h, h] using ih

theorem keys_adel (l : List (String × β)) (k : String) :
    (adel l k).map Prod.fst = (l.map Prod.fst).filter (fun x => ¬ x = k) := by
  unfold adel
  rw [List.filter_map]
  rfl

theorem length_aset (l : List (String × β)) (k : String) (v : β) :
    (aset l k v).length =
      if (alookup l k).isSome then l.length else l.length + 1 := by
  induction l with
  | nil => simp [aset, alookup]
  | cons p rest ih =>
    by_cases hp : p.1 = k
    · simp [aset, hp, alookup]
    · simp only [aset, hp, if_neg, alookup, List.length_cons, ih, if_false]
      split <;> rfl

theorem adel_of_none (l : List (String × β)) (k : String)
    (h : alookup l k = none) : adel l k = l := by
  induction l with
  | nil => rfl
  | cons p rest ih =>
    by_cases hp : p.1 = k
    · rw [alookup, if_pos hp] at h
      cases h
    · rw [alookup, if_neg hp] at h
      simp [adel, List.filter_cons, hp] at ih ⊢
      exact ih h

theorem length_adel_of_isSome (l : List (String × β)) (k : String)
    (hnd : (l.map Prod.fst).Nodup) (h : (alookup l k).isSome) :
    (adel l k).length + 1 = l.length := by
  induction l with
  | nil => simp [alookup] at h
  | cons p rest ih =>
    rw [List.map_cons, List.nodup_cons] at hnd
    by_cases hp : p.1 = k
    · have hnone : alookup rest k = none := by
        rw [alookup_eq_none_iff]
        rw [hp] at hnd
        exact hnd.1
      have h1 : adel (p :: rest) k = adel rest k := by
        simp [adel, List.filter_cons, hp]
      rw [h1, adel_of_none rest k hnone]
      simp
    · rw [alookup, if_neg hp] at h
      have h2 : adel (p :: rest) k = p :: adel rest k := by
        simp [adel, List.filter_cons, hp]
      have hrec := ih hnd.2 h
      rw [h2]
      simp only [List.length_cons]
      omega

/-! #### LRU invariant

`accessOrder` holds exactly the keys of `memoryCache`, without duplicates,
ordered by last touch: the ghost `touchT` assigns each key the logical time
of its most recent `updateAccessOrder`, which is exactly a `set` or a `get`
hit, so the head of `accessOrder` — the key `setMemoryCache` evicts — is the
least-recently-touched key. -/

def keysMem (st : CacheState V) : List String := st.memoryCache.map Prod.fst

def OrderSorted (ao : List String) (tt : List (String × Nat)) (clock : Nat) : Prop :=
  ao.Nodup ∧ (∀ x ∈ ao, (alookup tt x).getD 0 < clock) ∧
    ao.Pairwise (fun a b => (alookup tt a).getD 0 < (alookup tt b).getD 0)

def MemInv (st : CacheState V) : Prop :=
  (keysMem st).Nodup ∧
  (∀ x, x ∈ keysMem st ↔ x ∈ st.accessOrder) ∧
  OrderSorted st.accessOrder st.touchT st.clock

theorem orderSorted_touch (ao : List String) (tt : List (String × Nat))
    (clock : Nat) (k : String) (h : OrderSorted ao tt clock) :
    OrderSorted (ao.erase k ++ [k]) (aset tt k clock) (clock + 1) := by
  obtain ⟨hnd, hlt, hpw⟩ := h
  have herase_sub : ∀ x ∈ ao.erase k, x ∈ ao := fun x hx =>
    List.mem_of_mem_erase hx
  have herase_ne : ∀ x ∈ ao.erase k, x ≠ k := fun x hx =>
    ((List.Nodup.mem_erase_iff hnd).mp hx).1
  refine ⟨?_, ?_, ?_⟩
  · rw [List.nodup_append]
    refine ⟨hnd.erase k, List.nodup_singleton k, ?_⟩
    intro x hx
    simpa using herase_ne x hx
  · intro x hx
    rcases List.mem_append.mp hx with hx1 | hx2
    · rw [alookup_aset_ne _ _ _ _ (herase_ne x hx1)]
      exact lt_trans (hlt x (herase_sub x hx1)) (Nat.lt_succ_self _)
    · rw [List.mem_singleton.mp hx2, alookup_aset_self]
      exact Nat.lt_succ_self _
  · rw [List.pairwise_append]
    refine ⟨?_, List.pairwise_singleton _ _, ?_⟩
    · have hpe := hpw.sublist (List.erase_sublist k ao)
      refine List.Pairwise.imp_of_mem ?_ hpe
      intro a b ha hb hab
      rw [alookup_aset_ne _ _ _ _ (herase_ne a ha),
        alookup_aset_ne _ _ _ _ (herase_ne b hb)]
      exact hab
    · intro a ha b hb
      rw [List.mem_singleton.mp hb, alookup_aset_ne _ _ _ _ (herase_ne a ha),
        alookup_aset_self]
      exact hlt a (herase_sub a ha)

/-- Membership in the key list is untouched by `aset` on other keys. -/
theorem mem_keys_aset_ne (l : List (String × β)) (k x : String) (v : β)
    (hx : x ≠ k) : x ∈ (aset l k v).map Prod.fst ↔ x ∈ l.map Prod.fst := by
  rw [← isSome_iff_mem_keys, ← isSome_iff_mem_keys, alookup_aset_ne _ _ _ _ hx]

theorem mem_keys_aset_self (l : List (String × β)) (k : String) (v : β) :
    k ∈ (aset l k v).map Prod.fst := by
  rw [← isSome_iff_mem_keys, alookup_aset_self]
  rfl

theorem keys_aset_nodup (l : List (String × β)) (k : String) (v : β)
    (hnd : (l.map Prod.fst).Nodup) : ((aset l k v).map Prod.fst).Nodup := by
  cases halt : alookup l k with
  | none =>
    rw [keys_aset_none _ _ _ halt]
    have hknotin : k ∉ l.map Prod.fst := (alookup_eq_none_iff _ _).mp halt
    simp [List.nodup_append, hnd, hknotin]
  | some v' =>
    rw [keys_aset_mem _ _ _ (by rw [halt]; rfl)]
    exact hnd

/-- `updateAccessOrder` restores the LRU invariant after the memory tier has
been updated at `k`, provided the invariant holds away from `k`. -/
theorem memInv_updateAccessOrder (st : CacheState V) (k : String)
    (hnd : (keysMem st).Nodup)
    (hiff : ∀ x, x ≠ k → (x ∈ keysMem st ↔ x ∈ st.accessOrder))
    (hos : OrderSorted st.accessOrder st.touchT st.clock)
    (hk : k ∈ keysMem st) : MemInv (updateAccessOrder st k) := by
  refine ⟨hnd, ?_, orderSorted_touch _ _ _ k hos⟩
  intro x
  show x ∈ keysMem st ↔ x ∈ st.accessOrder.erase k ++ [k]
  rw [List.mem_append, List.mem_singleton, List.Nodup.mem_erase_iff hos.1]
  by_cases hxk : x = k
  · simp [hxk, hk]
  · simp only [hxk, or_false]
    rw [hiff x hxk]
    exact ⟨fun h => ⟨hxk, h⟩, fun h => h.2⟩

/-- `setMemoryCache` preserves the LRU invariant. -/
theorem setMemoryCache_inv (cfg : CacheCfg) (st : CacheState V) (k : String)
    (d : V) (ma : Option Nat) (now : Nat) (hinv : MemInv st) :
    MemInv (setMemoryCache cfg st k d ma now) := by
  obtain ⟨hnd, hiff, hos⟩ := hinv
  rw [setMemoryCache]
  split
  · rename_i hguard
    split
    · rename_i hao
      -- guard holds but accessOrder is empty: no eviction
      exact memInv_updateAccessOrder _ k (keys_aset_nodup _ _ _ hnd)
        (fun x hx => by
          show x ∈ (aset st.memoryCache k ⟨d, now, ma⟩).map Prod.fst ↔
            x ∈ st.accessOrder
          exact (mem_keys_aset_ne _ _ _ _ hx).trans (hiff x))
        hos (mem_keys_aset_self _ _ _)
    · rename_i oldest restOrder hao
      -- eviction: drop the head of accessOrder and its memory entry
      have hosr : OrderSorted restOrder st.touchT st.clock := by
        obtain ⟨hand, halt, hapw⟩ := hos
        rw [hao] at hand halt hapw
        exact ⟨(List.nodup_cons.mp hand).2,
          fun x hx => halt x (List.mem_cons_of_mem _ hx),
          (List.pairwise_cons.mp hapw).2⟩
      have hondup : (keysMem st).Nodup := hnd
      have hadelnd : ((adel st.memoryCache oldest).map Prod.fst).Nodup := by
        rw [keys_adel]
        exact hnd.filter _
      have hmemadel : ∀ x, x ∈ (adel st.memoryCache oldest).map Prod.fst ↔
          (x ∈ keysMem st ∧ ¬ x = oldest) := by
        intro x
        rw [keys_adel, List.mem_filter]
        simp [keysMem]
      refine memInv_updateAccessOrder _ k (keys_aset_nodup _ _ _ hadelnd)
        (fun x hx => ?_) hosr (mem_keys_aset_self _ _ _)
      show x ∈ (aset (adel st.memoryCache oldest) k ⟨d, now, ma⟩).map Prod.fst ↔
        x ∈ restOrder
      rw [mem_keys_aset_ne _ _ _ _ hx, hmemadel x, hiff x]
      have handup : st.accessOrder.Nodup := hos.1
      rw [hao] at handup ⊢
      rw [List.mem_cons]
      have holdnotin : oldest ∉ restOrder := (List.nodup_cons.mp handup).1
      constructor
      · rintro ⟨hor | hor, hne⟩
        · exact absurd hor hne
        · exact hor
      · intro hr
        exact ⟨Or.inr hr, fun he => holdnotin (he ▸ hr)⟩
  · -- no eviction: existing key or spare capacity
    exact memInv_updateAccessOrder _ k (keys_aset_nodup _ _ _ hnd)
      (fun x hx => by
        show x ∈ (aset st.memoryCache k ⟨d, now, ma⟩).map Prod.fst ↔
          x ∈ st.accessOrder
        exact (mem_keys_aset_ne _ _ _ _ hx).trans (hiff x))
      hos (mem_keys_aset_self _ _ _)

/-- `setMemoryCache` keeps the memory tier within `maxMemoryItems`, provided
the bound is at least 1. -/
theorem setMemoryCache_len (cfg : CacheCfg) (st : CacheState V) (k : String)
    (d : V) (ma : Option Nat) (now : Nat) (hinv : MemInv st)
    (hmax : 1 ≤ cfg.maxMemoryItems)
    (hb : st.memoryCache.length ≤ cfg.maxMemoryItems) :
    (setMemoryCache cfg st k d ma now).memoryCache.length ≤ cfg.maxMemoryItems := by
  rw [setMemoryCache]
  split
  · rename_i hguard
    split
    · rename_i hao
      have hkeys : keysMem st = [] := by
        rw [List.eq_nil_iff_forall_not_mem]
        intro x hx
        have hmem := (hinv.2.1 x).mp hx
        rw [hao] at hmem
        cases hmem
      have hmem0 : st.memoryCache.length = 0 := by
        have hlen := congrArg List.length hkeys
        simpa [keysMem] using hlen
      show (aset st.memoryCache k ⟨d, now, ma⟩).length ≤ _
      rw [length_aset]
      split <;> omega
    · rename_i oldest restOrder hao
      show (aset (adel st.memoryCache oldest) k ⟨d, now, ma⟩).length ≤ _
      rw [length_aset]
      have hknone : alookup st.memoryCache k = none := by
        have hgg := hguard.2
        rw [memHas] at hgg
        cases halt : alookup st.memoryCache k with
        | none => rfl
        | some v => rw [halt] at hgg; exact absurd rfl hgg
      have hkadel : alookup (adel st.memoryCache oldest) k = none := by
        by_cases hko : k = oldest
        · rw [hko]; exact alookup_adel_self _ _
        · rw [alookup_adel_ne _ _ _ hko]; exact hknone
      rw [hkadel]
      have holdmem : (alookup st.memoryCache oldest).isSome := by
        rw [isSome_iff_mem_keys]
        exact (hinv.2.1 oldest).mpr (by rw [hao]; exact List.mem_cons_self _ _)
      have hlen := length_adel_of_isSome st.memoryCache oldest hinv.1 holdmem
      simp only [Option.isSome_none, Bool.false_eq_true, if_false]
      omega
  · rename_i hguard
    push_neg at hguard
    show (aset st.memoryCache k ⟨d, now, ma⟩).length ≤ _
    rw [length_aset]
    split
    · exact hb
    · rename_i hnotsome
      by_cases hlen : cfg.maxMemoryItems ≤ st.memoryCache.length
      · exact absurd (hguard hlen) hnotsome
      · omega

/-- Lazy deletion of an expired memory entry preserves the invariant. -/
theorem del_inv (st : CacheState V) (k : String) (hinv : MemInv st) :
    MemInv { st with
      memoryCache := adel st.memoryCache k,
      accessOrder := st.accessOrder.erase k } := by
  obtain ⟨hnd, hiff, hos⟩ := hinv
  refine ⟨?_, ?_, ?_, ?_, ?_⟩
  · show ((adel st.memoryCache k).map Prod.fst).Nodup
    rw [keys_adel]
    exact hnd.filter _
  · intro x
    show x ∈ (adel st.memoryCache k).map Prod.fst ↔ x ∈ st.accessOrder.erase k
    rw [keys_adel, List.mem_filter, List.Nodup.mem_erase_iff hos.1]
    simp only [decide_not, Bool.not_eq_true', decide_eq_false_iff_not]
    have h2 : x ∈ List.map Prod.fst st.memoryCache ↔ x ∈ st.accessOrder := hiff x
    rw [h2]
    exact ⟨fun h => ⟨h.2, h.1⟩, fun h => ⟨h.2, h.1⟩⟩
  · exact hos.1.erase k
  · intro x hx
    exact hos.2.1 x (List.mem_of_mem_erase hx)
  · exact hos.2.2.sublist (List.erase_sublist k st.accessOrder)

theorem fileGet_inv (cfg : CacheCfg) (st : CacheState V) (k : String)
    (o : Option Nat) (now : Nat) (hinv : MemInv st) :
    MemInv (fileGet cfg st k o now).2 := by
  rw [fileGet]
  split
  · dsimp only
    split
    · exact hinv
    · exact setMemoryCache_inv cfg st k _ _ now hinv
  · exact hinv

theorem fileGet_len (cfg : CacheCfg) (st : CacheState V) (k : String)
    (o : Option Nat) (now : Nat) (hinv : MemInv st)
    (hmax : 1 ≤ cfg.maxMemoryItems)
    (hb : st.memoryCache.length ≤ cfg.maxMemoryItems) :
    (fileGet cfg st k o now).2.memoryCache.length ≤ cfg.maxMemoryItems := by
  rw [fileGet]
  split
  · dsimp only
    split
    · exact hb
    · exact setMemoryCache_len cfg st k _ _ now hinv hmax hb
  · exact hb

theorem get_inv (cfg : CacheCfg) (st : CacheState V) (k : String)
    (o : Option Nat) (now : Nat) (hinv : MemInv st) :
    MemInv (get cfg st k o now).2 := by
  rw [get]
  split
  · rename_i item hitem
    split
    · exact fileGet_inv cfg _ k o now (del_inv st k hinv)
    · refine memInv_updateAccessOrder st k hinv.1
        (fun x _ => hinv.2.1 x) hinv.2.2 ?_
      show k ∈ st.memoryCache.map Prod.fst
      rw [← isSome_iff_mem_keys, hitem]
      rfl
  · exact fileGet_inv cfg st k o now hinv

theorem get_len (cfg : CacheCfg) (st : CacheState V) (k : String)
    (o : Option Nat) (now : Nat) (hinv : MemInv st)
    (hmax : 1 ≤ cfg.maxMemoryItems)
    (hb : st.memoryCache.length ≤ cfg.maxMemoryItems) :
    (get cfg st k o now).2.memoryCache.length ≤ cfg.maxMemoryItems := by
  rw [get]
  split
  · rename_i item hitem
    split
    · refine fileGet_len cfg _ k o now (del_inv st k hinv) hmax ?_
      show (adel st.memoryCache k).length ≤ _
      exact le_trans (List.length_filter_le _ _) hb
    · exact hb
  · exact fileGet_len cfg st k o now hinv hmax hb

theorem set_inv (cfg : CacheCfg) (st : CacheState V) (k : String) (d : V)
    (o : Option Nat) (now : Nat) (hinv : MemInv st) :
    MemInv (Cache.set cfg st k d o now) :=
  setMemoryCache_inv cfg st k d o now hinv

theorem set_len (cfg : CacheCfg) (st : CacheState V) (k : String) (d : V)
    (o : Option Nat) (now : Nat) (hinv : MemInv st)
    (hmax : 1 ≤ cfg.maxMemoryItems)
    (hb : st.memoryCache.length ≤ cfg.maxMemoryItems) :
    (Cache.set cfg st k d o now).memoryCache.length ≤ cfg.maxMemoryItems :=
  setMemoryCache_len cfg st k d o now hinv hmax hb

/-- Any run of the public interface preserves the LRU invariant and the
capacity bound (for a capacity of at least 1). -/
theorem runCache_inv (cfg : CacheCfg) (hmax : 1 ≤ cfg.maxMemoryItems)
    (ops : List (CacheOp V)) (st : CacheState V) (hinv : MemInv st)
    (hb : st.memoryCache.length ≤ cfg.maxMemoryItems) :
    MemInv (runCache cfg st ops) ∧
      (runCache cfg st ops).memoryCache.length ≤ cfg.maxMemoryItems := by
  induction ops generalizing st with
  | nil => exact ⟨hinv, hb⟩
  | cons op ops ih =>
    have hstep : MemInv (stepCache cfg st op) ∧
        (stepCache cfg st op).memoryCache.length ≤ cfg.maxMemoryItems := by
      cases op with
      | get k o now =>
        exact ⟨get_inv cfg st k o now hinv, get_len cfg st k o now hinv hmax hb⟩
      | set k d o now =>
        exact ⟨set_inv cfg st k d o now hinv, set_len cfg st k d o now hinv hmax hb⟩
      | cleanup now => exact ⟨hinv, hb⟩
    exact ih _ hstep.1 hstep.2

theorem initCache_inv : MemInv (initCache (V := V)) := by
  refine ⟨List.nodup_nil, ?_, List.nodup_nil, ?_, List.Pairwise.nil⟩
  · intro x
    constructor
    · intro h
      cases h
    · intro h
      cases h
  · intro x hx
    cases hx

/-- At capacity, inserting a key that is not in the memory tier evicts
exactly the head of `accessOrder`. -/
theorem setMemoryCache_mem_evict (cfg : CacheCfg) (st : CacheState V)
    (k : String) (d : V) (ma : Option Nat) (now : Nat)
    (oldest : String) (rest : List String)
    (hao : st.accessOrder = oldest :: rest)
    (hfull : cfg.maxMemoryItems ≤ st.memoryCache.length)
    (hmiss : memHas st k = false) :
    (setMemoryCache cfg st k d ma now).memoryCache =
      aset (adel st.memoryCache oldest) k ⟨d, now, ma⟩ := by
  rw [setMemoryCache]
  split
  · split
    · rename_i hao2
      rw [hao] at hao2
      cases hao2
    · rename_i o r hao2
      rw [hao] at hao2
      injection hao2 with h1 h2
      subst h1
      rfl
  · rename_i hg
    exact absurd ⟨hfull, by simp [hmiss]⟩ hg

/-- Under the invariant, the head of `accessOrder` is a least-recently
touched key of the memory tier. -/
theorem accessOrder_head_min (st : CacheState V) (hinv : MemInv st)
    (oldest : String) (rest : List String)
    (hao : st.accessOrder = oldest :: rest) :
    ∀ x, memHas st x = true → touchOf st oldest ≤ touchOf st x := by
  intro x hx
  have hxin : x ∈ st.accessOrder :=
    (hinv.2.1 x).mp ((isSome_iff_mem_keys _ _).mp hx)
  rw [hao] at hxin
  rcases List.mem_cons.mp hxin with h | h
  · rw [h]
  · have hpw := hinv.2.2.2.2
    rw [hao] at hpw
    exact le_of_lt ((List.pairwise_cons.mp hpw).1 x h)

/-- C6 counterexample: with `maxMemoryItems = 0`, a single `set` leaves one
entry in the memory tier, exceeding the configured bound — `setMemoryCache`
only evicts when `accessOrder` is non-empty, so the very first insertion
overshoots a zero capacity. -/
theorem C6_capacity_counterexample :
    (runCache ⟨0, 100⟩ (initCache (V := Nat))
        [CacheOp.set "a" 0 none 0]).memoryCache.length = 1 ∧ ¬ ((1 : Nat) ≤ 0) := by
  constructor
  · rfl
  · decide

/-- C6 amended: for every sequence of operations on a cache whose configured
`maxMemoryItems` is at least 1, the in-process tier never holds more than
`maxMemoryItems` entries; and whenever insertion of a new key happens at
capacity, the evicted key is exactly the least-recently-touched key — where
recency (the ghost `touchT`) is refreshed on every `get` hit and every `set`
— and no other key is evicted. -/
theorem C6_lru_bound_and_eviction (cfg : CacheCfg) {V : Type}
    (hmax : 1 ≤ cfg.maxMemoryItems) (ops : List (CacheOp V)) :
    (runCache cfg initCache ops).memoryCache.length ≤ cfg.maxMemoryItems ∧
    (∀ k d ma now,
      memHas (runCache cfg initCache ops) k = false →
      cfg.maxMemoryItems ≤ (runCache cfg initCache ops).memoryCache.length →
      ∃ oldest rest,
        (runCache cfg initCache ops).accessOrder = oldest :: rest ∧
        memHas (runCache cfg initCache ops) oldest = true ∧
        memHas (Cache.set cfg (runCache cfg initCache ops) k d ma now) oldest
          = false ∧
        (∀ x, memHas (runCache cfg initCache ops) x = true →
          touchOf (runCache cfg initCache ops) oldest ≤
            touchOf (runCache cfg initCache ops) x) ∧
        (∀ x, memHas (runCache cfg initCache ops) x = true → x ≠ oldest →
          memHas (Cache.set cfg (runCache cfg initCache ops) k d ma now) x
            = true)) := by
  obtain ⟨hinv, hb⟩ :=
    runCache_inv cfg hmax ops initCache initCache_inv (by simp [initCache])
  refine ⟨hb, ?_⟩
  intro k d ma now hmiss hfull
  have hex : ∃ oldest rest,
      (runCache cfg initCache ops).accessOrder = oldest :: rest := by
    cases hao : (runCache cfg initCache ops).accessOrder with
    | nil =>
      exfalso
      have hkeys : keysMem (runCache cfg initCache ops) = [] := by
        rw [List.eq_nil_iff_forall_not_mem]
        intro x hx
        have hmem := (hinv.2.1 x).mp hx
        rw [hao] at hmem
        cases hmem
      have hmem0 : (runCache cfg initCache ops).memoryCache.length = 0 := by
        have hlen := congrArg List.length hkeys
        simpa [keysMem] using hlen
      omega
    | cons o r => exact ⟨o, r, rfl⟩
  obtain ⟨oldest, rest, hao⟩ := hex
  · have hmm := setMemoryCache_mem_evict cfg _ k d ma now oldest rest hao
      hfull hmiss
    have holdin : memHas (runCache cfg initCache ops) oldest = true := by
      have hmem : oldest ∈ keysMem (runCache cfg initCache ops) :=
        (hinv.2.1 oldest).mpr (by rw [hao]; exact List.mem_cons_self _ _)
      exact (isSome_iff_mem_keys _ _).mpr hmem
    have hsetmem : (Cache.set cfg (runCache cfg initCache ops) k d ma now).memoryCache
        = (setMemoryCache cfg (runCache cfg initCache ops) k d ma now).memoryCache :=
      rfl
    have hko : oldest ≠ k := by
      intro he
      rw [he, hmiss] at holdin
      cases holdin
    refine ⟨oldest, rest, hao, holdin, ?_,
      accessOrder_head_min _ hinv oldest rest hao, ?_⟩
    · show (alookup (Cache.set cfg (runCache cfg initCache ops) k d ma
        now).memoryCache oldest).isSome = false
      rw [hsetmem, hmm, alookup_aset_ne _ _ _ _ hko, alookup_adel_self]
      rfl
    · intro x hx hxo
      have hxk : x ≠ k := by
        intro he
        rw [he, hmiss] at hx
        cases hx
      show (alookup (Cache.set cfg (runCache cfg initCache ops) k d ma
        now).memoryCache x).isSome = true
      rw [hsetmem, hmm, alookup_aset_ne _ _ _ _ hxk, alookup_adel_ne _ _ _ hxo]
      exact hx

def cfg6 : CacheCfg := ⟨2, 100⟩

def ops6 : List (CacheOp Nat) :=
  [.set "a" 1 none 0, .set "b" 2 none 1, .get "a" none 2]

/-- Witness for C6 amended: capacity 2, keys `a` and `b` inserted, `a`
touched again by a hit; inserting `c` is at capacity and the least-recently
touched key is `b`. -/
theorem C6_lru_bound_and_eviction_witness :
    1 ≤ cfg6.maxMemoryItems ∧
    memHas (runCache cfg6 initCache ops6) "c" = false ∧
    cfg6.maxMemoryItems ≤ (runCache cfg6 initCache ops6).memoryCache.length ∧
    (runCache cfg6 initCache ops6).memoryCache.length ≤ cfg6.maxMemoryItems ∧
    (∃ oldest rest,
      (runCache cfg6 initCache ops6).accessOrder = oldest :: rest ∧
      memHas (runCache cfg6 initCache ops6) oldest = true ∧
      memHas (Cache.set cfg6 (runCache cfg6 initCache ops6) "c" 9 none 10) oldest
        = false ∧
      (∀ x, memHas (runCache cfg6 initCache ops6) x = true →
        touchOf (runCache cfg6 initCache ops6) oldest ≤
          touchOf (runCache cfg6 initCache ops6) x) ∧
      (∀ x, memHas (runCache cfg6 initCache ops6) x = true → x ≠ oldest →
        memHas (Cache.set cfg6 (runCache cfg6 initCache ops6) "c" 9 none 10) x
          = true)) :=
  ⟨by decide, by decide, by decide,
    (C6_lru_bound_and_eviction cfg6 (by decide) ops6).1,
    (C6_lru_bound_and_eviction cfg6 (by decide) ops6).2 "c" 9 none 10
      (by decide) (by decide)⟩

/-! #### Expiry (C7) and the cleanup sweep (C8) -/

theorem effAge_jsOr_none (o : Option Nat) (dflt : Nat) :
    effAge (jsOr o none) dflt = effAge o dflt := by
  cases o with
  | none => rfl
  | some x =>
    by_cases hx : x = 0 <;> simp [jsOr, effAge, hx]

/-- After `Cache.set`, the memory tier maps the key to the freshly stored
entry, in every eviction case. -/
theorem set_alookup_self (cfg : CacheCfg) (st : CacheState V) (k : String)
    (d : V) (o : Option Nat) (t0 : Nat) :
    alookup (Cache.set cfg st k d o t0).memoryCache k = some ⟨d, t0, o⟩ := by
  show alookup (setMemoryCache cfg st k d o t0).memoryCache k = _
  rw [setMemoryCache]
  split
  · split
    · exact alookup_aset_self _ _ _
    · exact alookup_aset_self _ _ _
  · exact alookup_aset_self _ _ _

/-- After `Cache.set`, the durable tier holds the freshly written file. -/
theorem set_file_alookup_self (cfg : CacheCfg) (st : CacheState V) (k : String)
    (d : V) (o : Option Nat) (t0 : Nat) :
    alookup (Cache.set cfg st k d o t0).fileCache k = some ⟨d, o, t0, t0⟩ := by
  show alookup (aset (setMemoryCache cfg st k d o t0).fileCache k ⟨d, o, t0, t0⟩) k = _
  exact alookup_aset_self _ _ _

/-- A durable-tier hit is only served when the entry is fresh by the
file's mtime and its effective max-age. -/
theorem fileGet_some (cfg : CacheCfg) (st : CacheState V) (k : String)
    (o : Option Nat) (now : Nat) (v : V)
    (h : (fileGet cfg st k o now).1 = some v) :
    ∃ fe, alookup st.fileCache k = some fe ∧ fe.data = v ∧
      isExpired fe.mtime (jsOr fe.maxAge o) cfg.maxFileAge now = false := by
  rw [fileGet] at h
  split at h
  · rename_i fe hfind
    dsimp only at h
    split at h
    · cases h
    · rename_i hfresh
      injection h with h1
      exact ⟨fe, hfind, h1, Bool.not_eq_true _ ▸ Bool.of_not_eq_true hfresh⟩
  · cases h

/-- C7: after `set(key, value)` with effective max-age `T` (the stored
override when truthy, else the cache-wide default), a `get(key)` with no
options returns the value while the entry's age is less than `T` and returns
null once the age exceeds `T`; and in general a value is returned from
either tier only if that tier's entry is unexpired at the time of the get. -/
theorem C7_expiry (cfg : CacheCfg) (st : CacheState V) (k : String) (d : V)
    (optMaxAge : Option Nat) (t0 t : Nat) :
    ((t - t0 < effAge optMaxAge cfg.maxFileAge →
        (get cfg (Cache.set cfg st k d optMaxAge t0) k none t).1 = some d) ∧
      (effAge optMaxAge cfg.maxFileAge < t - t0 →
        (get cfg (Cache.set cfg st k d optMaxAge t0) k none t).1 = none)) ∧
    (∀ (st' : CacheState V) (k' : String) (o : Option Nat) (now : Nat) (v : V),
      (get cfg st' k' o now).1 = some v →
      (∃ e, alookup st'.memoryCache k' = some e ∧ e.data = v ∧
        isExpired e.timestamp (jsOr e.maxAge o) cfg.maxFileAge now = false) ∨
      (∃ fe, alookup st'.fileCache k' = some fe ∧ fe.data = v ∧
        isExpired fe.mtime (jsOr fe.maxAge o) cfg.maxFileAge now = false)) := by
  constructor
  · have hl := set_alookup_self cfg st k d optMaxAge t0
    constructor
    · intro hfreshage
      have hfresh : isExpired t0 (jsOr optMaxAge none) cfg.maxFileAge t = false := by
        rw [isExpired, effAge_jsOr_none]
        simp only [decide_eq_false_iff_not, not_lt]
        omega
      simp only [get, hl, hfresh]
      rfl
    · intro hexpage
      have hexp : isExpired t0 (jsOr optMaxAge none) cfg.maxFileAge t = true := by
        rw [isExpired, effAge_jsOr_none]
        simpa using hexpage
      have hfl : alookup (Cache.set cfg st k d optMaxAge t0).fileCache k =
          some ⟨d, optMaxAge, t0, t0⟩ := set_file_alookup_self cfg st k d optMaxAge t0
      simp only [get, hl, hexp, if_true, fileGet]
      simp only [show alookup
          ({ Cache.set cfg st k d optMaxAge t0 with
            memoryCache := adel (Cache.set cfg st k d optMaxAge t0).memoryCache k,
            accessOrder :=
              (Cache.set cfg st k d optMaxAge t0).accessOrder.erase k }).fileCache k =
          some ⟨d, optMaxAge, t0, t0⟩ from hfl]
      simp only [hexp]
      rfl
  · intro st' k' o now v h
    rw [get] at h
    split at h
    · rename_i item hitem
      split at h
      · right
        have hres := fileGet_some cfg _ k' o now v h
        exact hres
      · rename_i hfresh
        injection h with h1
        exact Or.inl ⟨item, hitem, h1, Bool.not_eq_true _ ▸ Bool.of_not_eq_true hfresh⟩
    · exact Or.inr (fileGet_some cfg st' k' o now v h)

/-- Witness for C7 with max-age override 50 stored at time 0: the value is
served at age 49 and null at age 51 (the durable copy is expired too). -/
theorem C7_expiry_witness :
    ((49 : Nat) - 0 < effAge (some 50) 100) ∧
    (get ⟨10, 100⟩ (Cache.set ⟨10, 100⟩ (initCache (V := Nat)) "k" 1 (some 50) 0)
        "k" none 49).1 = some 1 ∧
    (effAge (some 50) (100 : Nat) < 51 - 0) ∧
    (get ⟨10, 100⟩ (Cache.set ⟨10, 100⟩ (initCache (V := Nat)) "k" 1 (some 50) 0)
        "k" none 51).1 = none :=
  ⟨by decide,
    (C7_expiry ⟨10, 100⟩ initCache "k" 1 (some 50) 0 49).1.1 (by decide),
    by decide,
    (C7_expiry ⟨10, 100⟩ initCache "k" 1 (some 50) 0 51).1.2 (by decide)⟩

/-- C8 counterexample: a durable entry written at time 0 with per-entry
max-age override 1000, under cache-wide default 100, is deleted by
`cleanup()` at time 500 even though its effective (override) max-age has not
elapsed: the sweep's first check compares the file's mtime-age against the
cache-wide default regardless of the recorded override. -/
theorem C8_cleanup_counterexample :
    fileHas (cleanup ⟨10, 100⟩
        (Cache.set ⟨10, 100⟩ (initCache (V := Nat)) "k" 7 (some 1000) 0) 500)
      "k" = false ∧
    ¬ (effAge (some 1000) 100 < 500 - 0) := by
  constructor
  · rfl
  · decide

/-- C8 amended: `cleanup()` deletes a durable file iff its mtime-age exceeds
the cache-wide default max-age, or the entry records a truthy per-entry
max-age that its body-timestamp age exceeds.  An override shorter than the
default is honored eagerly, but an override longer than the default does not
protect a file past the default age. -/
theorem C8_cleanup_spec (cfg : CacheCfg) (st : CacheState V) (now : Nat)
    (p : String × FileEntry V) (hp : p ∈ st.fileCache) :
    (p ∉ (cleanup cfg st now).fileCache ↔
      (cfg.maxFileAge < now - p.2.mtime ∨
        ∃ a, p.2.maxAge = some a ∧ a ≠ 0 ∧ a < now - p.2.timestamp)) := by
  rw [cleanup]
  show p ∉ st.fileCache.filter (fun q => ¬ cleanupDeletes cfg q.2 now) ↔ _
  rw [List.mem_filter]
  constructor
  · intro hnot
    by_cases hdel : cleanupDeletes cfg p.2 now = true
    · rw [cleanupDeletes, Bool.or_eq_true] at hdel
      rcases hdel with hdel | hdel
      · exact Or.inl (of_decide_eq_true hdel)
      · right
        cases hma : p.2.maxAge with
        | none => rw [hma] at hdel; cases hdel
        | some a =>
          rw [hma] at hdel
          rw [Bool.and_eq_true] at hdel
          exact ⟨a, rfl, of_decide_eq_true hdel.1, of_decide_eq_true hdel.2⟩
    · exact absurd ⟨hp, by simp [hdel]⟩ hnot
  · intro hdel hmem
    have hcond := hmem.2
    simp only [decide_not, Bool.not_eq_true', decide_eq_false_iff_not] at hcond
    apply hcond
    rw [cleanupDeletes, Bool.or_eq_true]
    rcases hdel with hdel | ⟨a, hma, ha0, halt⟩
    · exact Or.inl (decide_eq_true hdel)
    · right
      rw [hma, Bool.and_eq_true]
      exact ⟨decide_eq_true ha0, decide_eq_true halt⟩

def st8 : CacheState Nat := Cache.set ⟨10, 100⟩ initCache "k" 7 (some 1000) 0

/-- Witness for C8 amended: the freshly written file is present, and the
sweep at time 500 deletes it because its mtime-age 500 exceeds the default
100, even though its override 1000 has not elapsed. -/
theorem C8_cleanup_spec_witness :
    (("k", (⟨7, some 1000, 0, 0⟩ : FileEntry Nat)) ∈ st8.fileCache) ∧
      ("k", (⟨7, some 1000, 0, 0⟩ : FileEntry Nat)) ∉
        (cleanup ⟨10, 100⟩ st8 500).fileCache :=
  ⟨by decide,
    (C8_cleanup_spec ⟨10, 100⟩ st8 500 ("k", ⟨7, some 1000, 0, 0⟩)
      (by decide)).mpr (Or.inl (by decide))⟩

end Cache

/-! ### Item pipeline (Organizer.processVideo, src/core/organizer.js) and
file relocation (FileUtils.moveFile)

The filesystem is a set of directories and files identified by component
paths; a file `dir/name` is the path `dir ++ [name]`.  Filesystem primitives
that the pipeline does not retry (`fs.mkdir`, `fs.readdir`, `fs.rm`,
`fs.writeFile`) are deterministic total operations on this ideal filesystem;
the operations the code wraps in fallible I/O — the metadata resolution
(cache or scraper), the retried NFO generation, the retried cover
download/derivation, and each `fs.rename`/`copyFile`/`unlink`/`trash` inside
`FileUtils.moveFile` — take their outcomes from explicit oracles.  A failing
NFO or covers step may leave arbitrary partially-written files in the
destination directory; the oracles `nfoJunk`/`coversJunk` enumerate them.

`FileUtils.moveFile` destructures only `useSafeDelete`, `overwrite` and
`createDir` from its options: the `newName` option passed by the
compensation path of `processVideo` is ignored, so the model ignores it too.
`trash` and `unlink` both remove the file from its path.  `readdirNames`
lists the files directly inside a directory (the pipeline itself never
creates subdirectories of the destination directory). -/

namespace Pipeline

abbrev FPath := List String

structure FS where
  dirs : List FPath
  files : List FPath
deriving DecidableEq, Repr

def fileExists (fs : FS) (p : FPath) : Bool := decide (p ∈ fs.files)

/-- `fs.mkdir(d, {recursive: true})`: no-op when the directory exists. -/
def mkdirp (fs : FS) (d : FPath) : FS :=
  if d ∈ fs.dirs then fs else { fs with dirs := fs.dirs ++ [d] }

/-- Writing a file creates its path (overwriting keeps the path present). -/
def createFile (fs : FS) (p : FPath) : FS :=
  if p ∈ fs.files then fs else { fs with files := fs.files ++ [p] }

/-- `fs.rename`: the source path disappears, the target path appears. -/
def renameFile (fs : FS) (src tgt : FPath) : FS :=
  let rest := fs.files.erase src
  { fs with files := if tgt ∈ rest then rest else rest ++ [tgt] }

/-- `fs.copyFile`: the target path appears, the source is kept. -/
def copyFile (fs : FS) (src tgt : FPath) : FS := createFile fs tgt

/-- `fs.unlink` / `trash`: the path disappears. -/
def removeFile (fs : FS) (p : FPath) : FS :=
  { fs with files := fs.files.erase p }

/-- `fs.rm(d, {recursive: true, force: true})`. -/
def rmRec (fs : FS) (d : FPath) : FS :=
  { dirs := fs.dirs.filter (fun q => ¬ d.isPrefixOf q),
    files := fs.files.filter (fun p => ¬ d.isPrefixOf p) }

/-- `fs.readdir(d)` restricted to files directly inside `d`. -/
def readdirNames (fs : FS) (d : FPath) : List String :=
  fs.files.filterMap (fun p => if p.dropLast = d then p.getLast? else none)

/-- Node's `path.parse`: split a file name into stem and extension (the
extension starts at the last dot, unless that dot is the first character). -/
def splitExtName (s : String) : String × String :=
  let cs := s.toList
  let revTail := cs.reverse.takeWhile (fun c => c ≠ '.')
  if revTail.length = cs.length then (s, "")
  else if revTail.length + 1 = cs.length then (s, "")
  else
    (String.mk (cs.take (cs.length - 1 - revTail.length)),
     String.mk (cs.drop (cs.length - 1 - revTail.length)))

/-- `path.extname(file).toLowerCase()`. -/
def extnameLower (s : String) : String :=
  String.mk ((splitExtName s).2.toList.map Char.toLower)

/-- Outcomes of the raw I/O calls inside one `moveFile` invocation. -/
structure MoveEff where
  sameDev : Bool
  renameOk : Bool
  copyOk : Bool
  deleteOk : Bool
deriving DecidableEq, Repr

inductive MoveRes where
  | success (path : FPath)
  | failure
deriving DecidableEq, Repr

/-- The `${name} (${counter})${ext}` collision name. -/
def collisionName (fileName : String) (counter : Nat) : String :=
  (splitExtName fileName).1 ++ " (" ++ toString counter ++ ")" ++
    (splitExtName fileName).2

/-- The `while (await this.fileExists(targetPath))` loop: the plain name if
free, else the first free `name (k)` candidate. -/
def findFreeTarget (fs : FS) (targetDir : FPath) (fileName : String) : FPath :=
  if fileExists fs (targetDir ++ [fileName]) = false then targetDir ++ [fileName]
  else
    match (List.range (fs.files.length + 1)).find?
        (fun j => fileExists fs (targetDir ++ [collisionName fileName (j + 1)])
          = false) with
    | some j => targetDir ++ [collisionName fileName (j + 1)]
    | none => targetDir ++ [fileName]

/-- Shallow embedding of `FileUtils.moveFile(sourcePath, targetDir,
{useSafeDelete, overwrite})` (createDir defaulted to true): check the
source, create the target directory, resolve collisions when not
overwriting, then rename on the same device or copy-then-delete across
devices. -/
def moveFile (fs : FS) (sourcePath : FPath) (targetDir : FPath)
    (useSafeDelete overwrite : Bool) (io : MoveEff) : FS × MoveRes :=
  if fileExists fs sourcePath = false then (fs, .failure)
  else
    let fs1 := mkdirp fs targetDir
    let fileName := sourcePath.getLastD ""
    let targetPath :=
      if overwrite then targetDir ++ [fileName]
      else findFreeTarget fs1 targetDir fileName
    if io.sameDev then
      if io.renameOk then (renameFile fs1 sourcePath targetPath, .success targetPath)
      else (fs1, .failure)
    else
      if io.copyOk then
        let fs2 := copyFile fs1 sourcePath targetPath
        if io.deleteOk then (removeFile fs2 sourcePath, .success targetPath)
        else (fs2, .failure)
      else (fs1, .failure)

/-- The retried `moveVideoFile` (`createRetryableFunction` over
`_moveVideoFile`, `useSafeDelete: true, overwrite: false`): per-attempt I/O
outcomes, first success wins. -/
def moveRetry (fs : FS) (src dir : FPath) : List MoveEff → FS × Option FPath
  | [] => (fs, none)
  | io :: rest =>
    match moveFile fs src dir true false io with
    | (fs', .success p) => (fs', some p)
    | (fs', .failure) => moveRetry fs' src dir rest

inductive PipeErr where
  | metaErr
  | nfoErr
  | coversErr
  | moveErr
deriving DecidableEq, Repr

/-- The value `processVideo` resolves with: `{success: true, code, path}` or
`{success: false, code, error}`. -/
inductive PVResult where
  | ok (code : String) (path : FPath)
  | fail (code : String) (error : PipeErr)
deriving DecidableEq, Repr

/-- Oracles for one `processVideo` run: whether metadata resolution
succeeds, whether the retried NFO and covers steps succeed overall (with the
partial files failed attempts left behind), the cover extension derived from
the URL, per-attempt outcomes for the retried move, and the outcome of the
compensation move-back. -/
structure PipelineEff where
  metaOk : Bool
  nfoOk : Bool
  nfoJunk : List String
  coversOk : Bool
  coversJunk : List String
  coverExt : String
  moveAttempts : List MoveEff
  compMove : MoveEff
deriving DecidableEq, Repr

def addFiles (fs : FS) (d : FPath) (names : List String) : FS :=
  names.foldl (fun acc nm => createFile acc (d ++ [nm])) fs

/-- The compensation block of `processVideo`: look for a file with a video
extension in the destination directory, move it back to the source file's
directory (the result of this move is not checked, and its `newName` option
is ignored by `moveFile`), then remove the destination directory
recursively. -/
def compensate (fs : FS) (videoDir : FPath) (sourcePath : FPath)
    (videoExts : List String) (compMove : MoveEff) : FS :=
  let names := readdirNames fs videoDir
  let fs1 :=
    match names.find? (fun nm => decide (extnameLower nm ∈ videoExts)) with
    | some nm =>
      (moveFile fs (videoDir ++ [nm]) sourcePath.dropLast false false compMove).1
    | none => fs
  rmRec fs1 videoDir

/-- Shallow embedding of `Organizer.processVideo(videoInfo, config,
targetDir)`: resolve metadata (cache or scraper), create the destination
directory `targetDir/metadata.code`, generate the NFO, download the covers,
move the video file; on a failure after directory creation, compensate and
report the original step's error. -/
def processVideo (fs : FS) (code : String) (sourcePath : FPath)
    (targetDir : FPath) (metaCode : String) (videoExts : List String)
    (eff : PipelineEff) : FS × PVResult :=
  if eff.metaOk = false then (fs, .fail code .metaErr)
  else
    let videoDir := targetDir ++ [metaCode]
    let fs1 := mkdirp fs videoDir
    if eff.nfoOk = false then
      let fs2 := addFiles fs1 videoDir eff.nfoJunk
      (compensate fs2 videoDir sourcePath videoExts eff.compMove,
        .fail code .nfoErr)
    else
      let fs2 := createFile fs1 (videoDir ++ [metaCode ++ ".nfo"])
      if eff.coversOk = false then
        let fs3 := addFiles fs2 videoDir eff.coversJunk
        (compensate fs3 videoDir sourcePath videoExts eff.compMove,
          .fail code .coversErr)
      else
        let fs3 := createFile
          (createFile fs2 (videoDir ++ ["fanart" ++ eff.coverExt]))
          (videoDir ++ ["poster" ++ eff.coverExt])
        match moveRetry fs3 sourcePath videoDir eff.moveAttempts with
        | (fs4, some _) => (fs4, .ok metaCode videoDir)
        | (fs4, none) =>
          (compensate fs4 videoDir sourcePath videoExts eff.compMove,
            .fail code .moveErr)

/-! #### Preservation lemmas -/

theorem mkdirp_files (fs : FS) (d : FPath) : (mkdirp fs d).files = fs.files := by
  rw [mkdirp]
  split <;> rfl

theorem createFile_mono (fs : FS) (p q : FPath) (h : q ∈ fs.files) :
    q ∈ (createFile fs p).files := by
  rw [createFile]
  split
  · exact h
  · exact List.mem_append_left _ h

theorem addFiles_mono (d : FPath) (names : List String) (fs : FS) (q : FPath)
    (h : q ∈ fs.files) : q ∈ (addFiles fs d names).files := by
  induction names generalizing fs with
  | nil => exact h
  | cons nm names ih => exact ih _ (createFile_mono _ _ _ h)

/-- `moveFile` never removes any file other than its source (with
`overwrite: false` it resolves collisions instead of replacing, and even an
overwriting rename keeps the target path present). -/
theorem renameFile_mono (fs : FS) (src tgt q : FPath) (hq : q ∈ fs.files)
    (hne : q ≠ src) : q ∈ (renameFile fs src tgt).files := by
  rw [renameFile]
  dsimp only
  split
  · exact (List.mem_erase_of_ne hne).mpr hq
  · exact List.mem_append_left _ ((List.mem_erase_of_ne hne).mpr hq)

theorem moveFile_preserves (fs : FS) (src dir : FPath)
    (sd ow : Bool) (io : MoveEff) (q : FPath) (hq : q ∈ fs.files)
    (hne : q ≠ src) : q ∈ (moveFile fs src dir sd ow io).1.files := by
  rcases io with ⟨sdv, rok, cok, dok⟩
  have hq1 : q ∈ (mkdirp fs dir).files := by rw [mkdirp_files]; exact hq
  by_cases hex : fileExists fs src = false
  · simp only [moveFile, if_pos hex]
    exact hq
  · cases sdv <;> cases rok <;> cases cok <;> cases dok <;>
      simp only [moveFile, if_neg hex, Bool.false_eq_true, if_false, if_true]
    all_goals
      first
        | exact hq1
        | exact renameFile_mono _ _ _ _ hq1 hne
        | exact createFile_mono _ _ _ hq1
        | exact (List.mem_erase_of_ne hne).mpr (createFile_mono _ _ _ hq1)

/-- A failed `moveFile` attempt removes no file at all: every failure exit
happens before the source is deleted (a cross-device copy whose delete fails
leaves both the copy and the source behind). -/
theorem moveFile_fail_mono (fs : FS) (src dir : FPath) (sd ow : Bool)
    (io : MoveEff) (h : (moveFile fs src dir sd ow io).2 = .failure)
    (q : FPath) (hq : q ∈ fs.files) : q ∈ (moveFile fs src dir sd ow io).1.files := by
  rcases io with ⟨sdv, rok, cok, dok⟩
  have hq1 : q ∈ (mkdirp fs dir).files := by rw [mkdirp_files]; exact hq
  by_cases hex : fileExists fs src = false
  · simp only [moveFile, if_pos hex]
    exact hq
  · cases sdv <;> cases rok <;> cases cok <;> cases dok <;>
      simp [moveFile, if_neg hex] at h ⊢ <;>
    first
      | exact hq1
      | exact createFile_mono _ _ _ hq1

/-- An exhausted `moveRetry` removes no file. -/
theorem moveRetry_none_mono (src dir : FPath) (ios : List MoveEff) (fs : FS)
    (h : (moveRetry fs src dir ios).2 = none) (q : FPath) (hq : q ∈ fs.files) :
    q ∈ (moveRetry fs src dir ios).1.files := by
  induction ios generalizing fs with
  | nil => exact hq
  | cons io ios ih =>
    rw [moveRetry] at h ⊢
    cases hmf : moveFile fs src dir true false io with
    | mk fs' res =>
      rw [hmf] at h
      cases res with
      | success p =>
        dsimp only at h
        cases h
      | failure =>
        dsimp only at h ⊢
        have hq' : q ∈ fs'.files := by
          have hh := moveFile_fail_mono fs src dir true false io
            (by rw [hmf]) q hq
          rwa [hmf] at hh
        exact ih fs' h hq'

theorem isPrefixOf_self (l : FPath) : l.isPrefixOf l = true :=
  List.isPrefixOf_iff_prefix.mpr (List.prefix_refl l)

theorem isPrefixOf_append (l m : FPath) : l.isPrefixOf (l ++ m) = true :=
  List.isPrefixOf_iff_prefix.mpr (List.prefix_append l m)

/-- The compensation block removes the destination directory and everything
under it, and keeps every file outside it — in particular the source file. -/
theorem compensate_spec (fs : FS) (videoDir sourcePath : FPath)
    (videoExts : List String) (cm : MoveEff) :
    (videoDir ∉ (compensate fs videoDir sourcePath videoExts cm).dirs) ∧
    (∀ p ∈ (compensate fs videoDir sourcePath videoExts cm).files,
      videoDir.isPrefixOf p = false) ∧
    (∀ q ∈ fs.files, videoDir.isPrefixOf q = false →
      q ∈ (compensate fs videoDir sourcePath videoExts cm).files) := by
  rw [compensate]
  refine ⟨?_, ?_, ?_⟩
  · intro hmem
    rw [rmRec] at hmem
    have hpred := (List.mem_filter.mp hmem).2
    simp only [decide_not, Bool.not_eq_true', decide_eq_false_iff_not] at hpred
    exact hpred (isPrefixOf_self videoDir)
  · intro p hp
    rw [rmRec] at hp
    have hpred := (List.mem_filter.mp hp).2
    simp only [decide_not, Bool.not_eq_true', decide_eq_false_iff_not] at hpred
    exact Bool.of_not_eq_true hpred
  · intro q hq hqpre
    rw [rmRec]
    apply List.mem_filter.mpr
    constructor
    · split
      · rename_i nm hnm
        apply moveFile_preserves _ _ _ _ _ _ _ hq
        intro he
        rw [he, isPrefixOf_append videoDir [nm]] at hqpre
        cases hqpre
      · exact hq
    · simp only [decide_not, Bool.not_eq_true', decide_eq_false_iff_not]
      intro hc
      rw [hc] at hqpre
      cases hqpre

/-- C1 counterexample: a work item whose source file already lies inside the
destination directory `targetDir/metadata.code`.  Metadata resolves, the NFO
is written, the image fetch fails; compensation finds the video file in the
destination directory, "moves it back" to `path.dirname(sourceVideoPath)` —
which is the destination directory itself, so the collision loop renames it
to `v (1).mp4` (`moveFile` ignores the `newName` option) — and then
`fs.rm(videoDir, {recursive: true})` deletes it: after the run the source
file is gone, not at its original path. -/
theorem C1_rollback_counterexample :
    (processVideo ⟨[["out"], ["out", "ABC-123"]], [["out", "ABC-123", "v.mp4"]]⟩
        "ABC-123" ["out", "ABC-123", "v.mp4"] ["out"] "ABC-123" [".mp4"]
        ⟨true, true, [], false, [], ".jpg", [], ⟨true, true, true, true⟩⟩).2
      = .fail "ABC-123" .coversErr ∧
    fileExists ⟨[["out"], ["out", "ABC-123"]], [["out", "ABC-123", "v.mp4"]]⟩
      ["out", "ABC-123", "v.mp4"] = true ∧
    fileExists
      (processVideo ⟨[["out"], ["out", "ABC-123"]], [["out", "ABC-123", "v.mp4"]]⟩
        "ABC-123" ["out", "ABC-123", "v.mp4"] ["out"] "ABC-123" [".mp4"]
        ⟨true, true, [], false, [], ".jpg", [], ⟨true, true, true, true⟩⟩).1
      ["out", "ABC-123", "v.mp4"] = false := by
  refine ⟨by decide, by decide, by decide⟩

/-- C1 amended: for every work item whose metadata resolution succeeds but
whose pipeline fails at or after description-file generation, provided the
source video file does not lie under the destination directory
(`targetDir/metadata.code`), the compensation leaves the destination
directory absent (no file under it survives) and the source video file at
its original path under its original name. -/
theorem C1_rollback (fs : FS) (code : String) (srcDir : FPath)
    (srcName : String) (targetDir : FPath) (metaCode : String)
    (videoExts : List String) (eff : PipelineEff) (e : PipeErr)
    (hsrc : fileExists fs (srcDir ++ [srcName]) = true)
    (hnot : (targetDir ++ [metaCode]).isPrefixOf (srcDir ++ [srcName]) = false)
    (hfail : (processVideo fs code (srcDir ++ [srcName]) targetDir metaCode
      videoExts eff).2 = .fail code e)
    (hne : e ≠ .metaErr) :
    ((targetDir ++ [metaCode]) ∉
      (processVideo fs code (srcDir ++ [srcName]) targetDir metaCode
        videoExts eff).1.dirs) ∧
    (∀ p ∈ (processVideo fs code (srcDir ++ [srcName]) targetDir metaCode
        videoExts eff).1.files,
      (targetDir ++ [metaCode]).isPrefixOf p = false) ∧
    fileExists (processVideo fs code (srcDir ++ [srcName]) targetDir metaCode
      videoExts eff).1 (srcDir ++ [srcName]) = true := by
  have hsrcmem : (srcDir ++ [srcName]) ∈ fs.files := of_decide_eq_true hsrc
  cases hm : eff.metaOk with
  | false =>
    rw [processVideo] at hfail
    rw [if_pos hm] at hfail
    injection hfail with h1 h2
    exact absurd h2.symm hne
  | true =>
    cases hn : eff.nfoOk with
    | false =>
      simp only [processVideo, hm, hn] at hfail ⊢
      have hc := compensate_spec
        (addFiles (mkdirp fs (targetDir ++ [metaCode])) (targetDir ++ [metaCode])
          eff.nfoJunk)
        (targetDir ++ [metaCode]) (srcDir ++ [srcName]) videoExts eff.compMove
      refine ⟨hc.1, hc.2.1, ?_⟩
      apply decide_eq_true
      apply hc.2.2 _ ?_ hnot
      apply addFiles_mono
      rw [mkdirp_files]
      exact hsrcmem
    | true =>
      cases hcv : eff.coversOk with
      | false =>
        simp only [processVideo, hm, hn, hcv] at hfail ⊢
        have hc := compensate_spec
          (addFiles (createFile (mkdirp fs (targetDir ++ [metaCode]))
              ((targetDir ++ [metaCode]) ++ [metaCode ++ ".nfo"]))
            (targetDir ++ [metaCode]) eff.coversJunk)
          (targetDir ++ [metaCode]) (srcDir ++ [srcName]) videoExts eff.compMove
        refine ⟨hc.1, hc.2.1, ?_⟩
        apply decide_eq_true
        apply hc.2.2 _ ?_ hnot
        apply addFiles_mono
        apply createFile_mono
        rw [mkdirp_files]
        exact hsrcmem
      | true =>
        rcases hmv : moveRetry
          (createFile (createFile
            (createFile (mkdirp fs (targetDir ++ [metaCode]))
              ((targetDir ++ [metaCode]) ++ [metaCode ++ ".nfo"]))
            ((targetDir ++ [metaCode]) ++ ["fanart" ++ eff.coverExt]))
            ((targetDir ++ [metaCode]) ++ ["poster" ++ eff.coverExt]))
          (srcDir ++ [srcName]) (targetDir ++ [metaCode]) eff.moveAttempts
          with ⟨fs4, opt⟩
        cases opt with
        | some p =>
          rw [processVideo] at hfail
          simp only [hm, hn, hcv, hmv] at hfail
          cases hfail
        | none =>
          simp only [processVideo, hm, hn, hcv, hmv] at hfail ⊢
          have hc := compensate_spec fs4 (targetDir ++ [metaCode])
            (srcDir ++ [srcName]) videoExts eff.compMove
          refine ⟨hc.1, hc.2.1, ?_⟩
          apply decide_eq_true
          apply hc.2.2 _ ?_ hnot
          have hsrc3 : (srcDir ++ [srcName]) ∈
              (createFile (createFile
                (createFile (mkdirp fs (targetDir ++ [metaCode]))
                  ((targetDir ++ [metaCode]) ++ [metaCode ++ ".nfo"]))
                ((targetDir ++ [metaCode]) ++ ["fanart" ++ eff.coverExt]))
                ((targetDir ++ [metaCode]) ++ ["poster" ++ eff.coverExt])).files := by
            apply createFile_mono
            apply createFile_mono
            apply createFile_mono
            rw [mkdirp_files]
            exact hsrcmem
          have hmono := moveRetry_none_mono (srcDir ++ [srcName])
            (targetDir ++ [metaCode]) eff.moveAttempts _
            (by rw [hmv]) _ hsrc3
          rwa [hmv] at hmono

/-- Witness for C1: a concrete covers-failure run from `in/v.mp4` toward
`out/ABC-123` (source outside the destination) ends with the destination
directory gone and the source file intact. -/
theorem C1_rollback_witness :
    ((["out"] ++ ["ABC-123"]) ∉
      (processVideo ⟨[["out"]], [["in", "v.mp4"]]⟩ "ABC-123" (["in"] ++ ["v.mp4"])
        ["out"] "ABC-123" [".mp4"]
        ⟨true, true, [], false, [], ".jpg", [], ⟨true, true, true, true⟩⟩).1.dirs) ∧
    (∀ p ∈ (processVideo ⟨[["out"]], [["in", "v.mp4"]]⟩ "ABC-123"
        (["in"] ++ ["v.mp4"]) ["out"] "ABC-123" [".mp4"]
        ⟨true, true, [], false, [], ".jpg", [], ⟨true, true, true, true⟩⟩).1.files,
      (["out"] ++ ["ABC-123"]).isPrefixOf p = false) ∧
    fileExists (processVideo ⟨[["out"]], [["in", "v.mp4"]]⟩ "ABC-123"
      (["in"] ++ ["v.mp4"]) ["out"] "ABC-123" [".mp4"]
      ⟨true, true, [], false, [], ".jpg", [], ⟨true, true, true, true⟩⟩).1
      (["in"] ++ ["v.mp4"]) = true :=
  C1_rollback ⟨[["out"]], [["in", "v.mp4"]]⟩ "ABC-123" ["in"] "v.mp4" ["out"]
    "ABC-123" [".mp4"]
    ⟨true, true, [], false, [], ".jpg", [], ⟨true, true, true, true⟩⟩
    .coversErr (by decide) (by decide) (by decide) (by decide)

/-- C10: on every input and every oracle outcome, `processVideo` returns a
value (it is a total function in this embedding, mirroring the source's
outer try/catch), and that value is either `{success: true, code, path}`
for the destination directory or `{success: false, code, error}`; moreover
the outcome of the compensation's move-back never changes the returned
value, so a compensation error cannot replace the original failure. -/
theorem C10_processVideo_shape (fs : FS) (code : String) (sp td : FPath)
    (mc : String) (ve : List String) (eff : PipelineEff) :
    ((processVideo fs code sp td mc ve eff).2 = PVResult.ok mc (td ++ [mc]) ∨
      ∃ e, (processVideo fs code sp td mc ve eff).2 = PVResult.fail code e) ∧
    (∀ cm, (processVideo fs code sp td mc ve
        { eff with compMove := cm }).2 =
      (processVideo fs code sp td mc ve eff).2) := by
  constructor
  · cases hm : eff.metaOk with
    | false => exact Or.inr ⟨.metaErr, by simp [processVideo, hm]⟩
    | true =>
      cases hn : eff.nfoOk with
      | false => exact Or.inr ⟨.nfoErr, by simp [processVideo, hm, hn]⟩
      | true =>
        cases hcv : eff.coversOk with
        | false => exact Or.inr ⟨.coversErr, by simp [processVideo, hm, hn, hcv]⟩
        | true =>
          rw [processVideo]
          simp only [hm, hn, hcv]
          rcases hmv : moveRetry
            (createFile (createFile
              (createFile (mkdirp fs (td ++ [mc])) ((td ++ [mc]) ++ [mc ++ ".nfo"]))
              ((td ++ [mc]) ++ ["fanart" ++ eff.coverExt]))
              ((td ++ [mc]) ++ ["poster" ++ eff.coverExt]))
            sp (td ++ [mc]) eff.moveAttempts with ⟨fs4, opt⟩
          cases opt with
          | some p => exact Or.inl (by simp [hmv])
          | none => exact Or.inr ⟨.moveErr, by simp [hmv]⟩
  · intro cm
    cases hm : eff.metaOk with
    | false => simp [processVideo, hm]
    | true =>
      cases hn : eff.nfoOk with
      | false => simp [processVideo, hm, hn]
      | true =>
        cases hcv : eff.coversOk with
        | false => simp [processVideo, hm, hn, hcv]
        | true =>
          rw [processVideo, processVideo]
          simp only [hm, hn, hcv]
          rcases hmv : moveRetry
            (createFile (createFile
              (createFile (mkdirp fs (td ++ [mc])) ((td ++ [mc]) ++ [mc ++ ".nfo"]))
              ((td ++ [mc]) ++ ["fanart" ++ eff.coverExt]))
              ((td ++ [mc]) ++ ["poster" ++ eff.coverExt]))
            sp (td ++ [mc]) eff.moveAttempts with ⟨fs4, opt⟩
          cases opt with
          | some p => simp [hmv]
          | none => simp [hmv]

end Pipeline

end VideoScanner
